import Mathlib

/-!
Shallow embedding of the builtin-library composition layer of the ispc
compiler (src/builtins.cpp): the bitcode composition and pruning engine.

The LLVM module is modelled as a list of functions (each with a name, a
declaration flag, a linkage kind, the list of function names its body
references, and its value type), a list of global variables, and a list of
"llvm.compiler.used"-style marker globals (each an append-only list of
constant operands).  Whole-module dead-code elimination (GlobalDCE) keeps
exactly the functions reachable from the non-internal functions and from
the marker operands.
-/

namespace ISPC

/-- Per-symbol linkage kind: external (root for dead-code elimination) or
internal (private, removable when unreachable). -/
inductive Linkage where
  | external : Linkage
  | internal : Linkage
deriving DecidableEq, Repr

/-- LLVM type identities, as far as the intrinsic signature check needs
them: opaque scalar/function type identifiers and pointer types. -/
inductive Ty where
  | scalar (id : Nat) : Ty
  | fnTy (id : Nat) : Ty
  | ptr (pointee : Ty) : Ty
deriving DecidableEq, Repr

/-- An operand of a preservation marker: either a (bitcast) constant
pointer to a module function, identified by name, or some other constant
that does not resolve to a function, carrying its module-wide use count. -/
inductive Entry where
  | fnRef (name : String) : Entry
  | other (uses : Nat) : Entry
deriving DecidableEq, Repr

/-- A marker global such as llvm.compiler.used: appending linkage, a list
of constant operands.  Never removed by dead-code elimination. -/
structure Marker where
  name : String
  entries : List Entry
deriving DecidableEq, Repr

/-- A module function: `calls` lists the function names referenced from
its body (one list element per referencing use); `gvarRefs` lists the
global variables its body references; `ty` is its LLVM value type. -/
structure Func where
  name : String
  isDecl : Bool
  linkage : Linkage
  calls : List String
  gvarRefs : List String
  ty : Ty
deriving DecidableEq, Repr

/-- A non-function global variable. -/
structure GVar where
  name : String
  linkage : Linkage
deriving DecidableEq, Repr

/-- The IR module: functions, global variables, marker globals, target
triple and data layout strings. -/
structure Module where
  funcs : List Func
  gvars : List GVar
  markers : List Marker
  triple : String
  dataLayout : String
deriving DecidableEq, Repr

/-- Modelled from the spec: the Preservation Registry (builtin::persistentGroups
and builtin::persistentFuncs, declared in builtins.h, not part of the shown
sources) is a static table of named persistent groups, each an ordered list
of function names, plus a list of individually persistent function names. -/
structure Env where
  persistentGroups : List (String × List String)
  persistentFuncs : List String
deriving DecidableEq, Repr

/-- Fatal conditions: FATAL() on an unresolvable intrinsic identifier,
Assert() failures. -/
inductive CompErr where
  | assertFailed : CompErr
  | intrinsicNotFound (name : String) : CompErr
deriving DecidableEq, Repr

/-- Boolean string-prefix test (String::compare(0, n, p) in the source). -/
def strStartsWith (s pre : String) : Bool := pre.data.isPrefixOf s.data

/-- llvm::Function::isIntrinsic(): the name begins with "llvm.". -/
def Func.isIntrinsicF (f : Func) : Bool := strStartsWith f.name "llvm."

/-- lStartsWithLLVM from the source. -/
def lStartsWithLLVM (name : String) : Bool := strStartsWith name "llvm."

/-- Module::getFunction(name) returns a non-null pointer exactly when some
module function bears the name. -/
def hasFunc (M : Module) (name : String) : Bool :=
  M.funcs.any (fun f => f.name == name)

/-- Number of marker operands of `mk` that are constant pointers to the
function named `name`. -/
def Marker.fnCount (mk : Marker) (name : String) : Nat :=
  mk.entries.countP (fun e =>
    match e with
    | Entry.fnRef n => n == name
    | Entry.other _ => false)

/-- llvm::Value::getNumUses() for the function named `name`: uses from
other functions' bodies plus uses from marker operands. -/
def numUses (M : Module) (name : String) : Nat :=
  (M.funcs.map (fun f => f.calls.count name)).sum
    + (M.markers.map (fun mk => mk.fnCount name)).sum

/-- Function names referenced by a marker's operands. -/
def Marker.fnNames (mk : Marker) : List String :=
  mk.entries.filterMap (fun e =>
    match e with
    | Entry.fnRef n => some n
    | Entry.other _ => none)

/-- GlobalDCE roots: every function that is not discardable-if-unused
(non-internal linkage) and every function referenced from a marker global
(markers have appending linkage and are always live). -/
def Module.roots (M : Module) : List String :=
  (M.funcs.filter (fun f => f.linkage != Linkage.internal)).map Func.name
    ++ M.markers.flatMap Marker.fnNames

/-- One liveness-propagation step: add the callees of every already-live
function. -/
def reachStep (M : Module) (s : List String) : List String :=
  s ++ (M.funcs.filter (fun f => s.contains f.name)).flatMap Func.calls

/-- Iterated liveness propagation from a root set. -/
def reachIterFrom (M : Module) (rs : List String) : Nat → List String
  | 0 => rs
  | n + 1 => reachStep M (reachIterFrom M rs n)

/-- Enough iterations to saturate: one per possibly-added name, plus one. -/
def reachFuel (M : Module) (rs : List String) : Nat :=
  (rs ++ M.funcs.flatMap Func.calls).length + 1

/-- All function names transitively reachable from `rs` in `M`. -/
def reachFrom (M : Module) (rs : List String) : List String :=
  reachIterFrom M rs (reachFuel M rs)

/-- Names live under GlobalDCE: reachable from the module's roots. -/
def reachList (M : Module) : List String :=
  reachFrom M M.roots

/-- lRemoveUnused: run GlobalDCE.  A function survives exactly when its
name is live; an internal global variable survives exactly when some
surviving function references it. -/
def lRemoveUnused (M : Module) : Module :=
  let keep := reachList M
  let funcs := M.funcs.filter (fun f => keep.contains f.name)
  { M with
    funcs := funcs
    gvars := M.gvars.filter (fun gv =>
      gv.linkage != Linkage.internal
        || funcs.any (fun f => f.gvarRefs.contains gv.name)) }

/-- The well-known name of the preservation marker. -/
def llvmCompilerUsedName : String := "llvm.compiler.used"

/-- Candidate names the module symbol table hands out when the well-known
marker name is requested: the name itself, then uniquified variants. -/
def dotName (j : Nat) : String :=
  String.mk ("llvm.compiler.used".data ++ List.replicate j '.')

/-- Whether some marker in the list already bears the name. -/
def markerNameTaken (ms : List Marker) (s : String) : Bool :=
  ms.any (fun mk => mk.name == s)

/-- The name a freshly created llvm.compiler.used global actually receives:
the well-known name when free, otherwise a uniquified variant (LLVM's
module symbol table renames a new global whose requested name is taken). -/
def freshMarkerName (ms : List Marker) : String :=
  match (List.range (ms.length + 1)).find? (fun j => !(markerNameTaken ms (dotName j))) with
  | some j => dotName j
  | none => String.mk []

/-- Module::getNamedGlobal("llvm.compiler.used"). -/
def Module.findLLVMUsed (M : Module) : Option Marker :=
  M.markers.find? (fun mk => mk.name == llvmCompilerUsedName)

/-- lCreateLLVMUsed: create a new llvm.compiler.used global holding the
given constant pointers.  It does not erase an existing marker; the new
global is uniquified by the symbol table when the name is taken. -/
def lCreateLLVMUsed (M : Module) (ConstPtrs : List Entry) : Module :=
  { M with markers := M.markers ++ [{ name := freshMarkerName M.markers, entries := ConstPtrs }] }

/-- lUpdateLLVMUsed: erase the existing llvm.compiler.used global, then
rebuild it wholesale from the new element list. -/
def lUpdateLLVMUsed (M : Module) (newElements : List Entry) : Module :=
  lCreateLLVMUsed
    { M with markers := M.markers.eraseP (fun mk => mk.name == llvmCompilerUsedName) }
    newElements

/-- lFuncAsConstInt8Ptr: a constant i8* pointer to the named function, or
none when the module has no function of that name. -/
def lFuncAsConstInt8Ptr (M : Module) (name : String) : Option Entry :=
  if hasFunc M name then some (Entry.fnRef name) else none

/-- The anchor phase's per-group test: some member exists in the module
and has at least one use. -/
def lGroupIsUsed (M : Module) (functions : List String) : Bool :=
  functions.any (fun name => hasFunc M name && decide (0 < numUses M name))

/-- The constant pointers the anchor phase collects: every member of every
used persistent group that exists in the module, then every persistent
function that exists in the module. -/
def lAnchorConstPtrs (env : Env) (M : Module) : List Entry :=
  (env.persistentGroups.flatMap (fun gp =>
     if lGroupIsUsed M gp.2 then gp.2.filterMap (lFuncAsConstInt8Ptr M) else []))
    ++ env.persistentFuncs.filterMap (lFuncAsConstInt8Ptr M)

/-- lAddPersistentToLLVMUsed: the anchor phase.  When the collected list is
empty nothing is created; otherwise a fresh marker is created (without
touching any existing marker). -/
def lAddPersistentToLLVMUsed (env : Env) (M : Module) : Module :=
  let ConstPtrs := lAnchorConstPtrs env M
  if ConstPtrs.isEmpty then M else lCreateLLVMUsed M ConstPtrs

/-- llvm::Value::getNumUses() of a marker operand. -/
def entryNumUses (M : Module) : Entry → Nat
  | Entry.fnRef n => numUses M n
  | Entry.other u => u

/-- lExtractUsedFunctions: walk the marker operands; an operand whose use
count exceeds one must resolve to a function (Assert) and is recorded as
used; any other operand is skipped. -/
def lExtractUsedFunctions (M : Module) : List Entry → Except CompErr (List String)
  | [] => Except.ok []
  | e :: rest =>
    if 1 < entryNumUses M e then
      match e with
      | Entry.fnRef n => (lExtractUsedFunctions M rest).map (fun l => n :: l)
      | Entry.other _ => Except.error CompErr.assertFailed
    else lExtractUsedFunctions M rest

/-- lFindUsedPersistentGroups composed with lCollectPreservedFunctions:
the members of every persistent group some member of which is a used
module function, then every persistent function present in the module. -/
def lCollectPreservedFunctions (env : Env) (M : Module) (usedFunctions : List String) : List Entry :=
  (env.persistentGroups.flatMap (fun gp =>
     if gp.2.any (fun name => hasFunc M name && usedFunctions.contains name)
     then gp.2.filterMap (lFuncAsConstInt8Ptr M) else []))
    ++ env.persistentFuncs.filterMap (lFuncAsConstInt8Ptr M)

/-- lRemoveUnusedPersistentFunctions: the re-closure phase.  A no-op when
no llvm.compiler.used global exists; otherwise reads the marker back,
rebuilds it from the used persistent groups, and prunes once more. -/
def lRemoveUnusedPersistentFunctions (env : Env) (M : Module) : Except CompErr Module :=
  match M.findLLVMUsed with
  | none => Except.ok M
  | some llvmUsed => do
    let usedFunctions ← lExtractUsedFunctions M llvmUsed.entries
    let newElements := lCollectPreservedFunctions env M usedFunctions
    Except.ok (lRemoveUnused (lUpdateLLVMUsed M newElements))

/-- The protect-prune sequence run after the standard-library link:
anchor, whole-module dead-code elimination, re-closure (which prunes
again). -/
def protectPrune (env : Env) (M : Module) : Except CompErr Module :=
  lRemoveUnusedPersistentFunctions env (lRemoveUnused (lAddPersistentToLLVMUsed env M))

/-- lSetAsInternal: demote every defined (non-declaration) function whose
name is in the set to internal linkage. -/
def lSetAsInternal (module : Module) (functions : List String) : Module :=
  { module with
    funcs := module.funcs.map (fun F =>
      if !F.isDecl && functions.contains F.name then { F with linkage := Linkage.internal } else F) }

/-- lSetInternalLinkageGlobal: demote the named global variable to internal
linkage; no-op when absent. -/
def lSetInternalLinkageGlobal (module : Module) (name : String) : Module :=
  { module with
    gvars := module.gvars.map (fun gv =>
      if gv.name == name then { gv with linkage := Linkage.internal } else gv) }

/-- lSetInternalLinkageGlobals: the fixed set of known global variables. -/
def lSetInternalLinkageGlobals (module : Module) : Module :=
  lSetInternalLinkageGlobal
    (lSetInternalLinkageGlobal
      (lSetInternalLinkageGlobal module "__fast_masked_vload")
      "__math_lib")
    "__memory_alignment"

/-- Module::getOrInsertFunction: insert a declaration with the given name
and type when no function of that name exists yet. -/
def getOrInsertFunction (m : Module) (f : Func) : Module :=
  if hasFunc m f.name then m
  else
    { m with
      funcs := m.funcs ++ [{ name := f.name, isDecl := true, linkage := Linkage.external,
                             calls := [], gvarRefs := [], ty := f.ty }] }

/-- The destination declarations an only-needed link resolves: declared in
the destination with at least one use there. -/
def neededNames (dst : Module) : List String :=
  (dst.funcs.filter (fun f => f.isDecl && decide (0 < numUses dst f.name))).map Func.name

/-- Modelled from the spec: llvm::Linker::linkModules with the
LinkOnlyNeeded flag is an external backend-toolkit primitive ("merge
module B into module A, keeping only needed declarations").  It moves the
source definitions needed to resolve used destination declarations
(transitively, following the source call graph) and, per the contract
documented at its call site in lAddBitcodeToModule, the source
declarations that have uses inside the source module.  Existing
destination functions are never dropped; a needed source definition
replaces the destination's declaration of the same name. -/
def linkOnlyNeeded (dst src : Module) : Module :=
  let neededSet := reachFrom src (neededNames dst)
  let fromSrc := src.funcs.filter (fun f =>
    !(hasFunc dst f.name)
      && ((!f.isDecl && neededSet.contains f.name)
          || (f.isDecl && (decide (0 < numUses src f.name) || neededSet.contains f.name))))
  let upgraded := dst.funcs.map (fun f =>
    if f.isDecl && neededSet.contains f.name then
      match src.funcs.find? (fun g => g.name == f.name && !g.isDecl) with
      | some g => g
      | none => f
    else f)
  { dst with funcs := upgraded ++ fromSrc }

/-- lAddBitcodeToModule: insert a declaration by hand for every library
declaration with zero uses (the needed-only link would drop them), then
merge the library into the module keeping only what is needed. -/
def lAddBitcodeToModule (bcModule module : Module) : Module :=
  let m1 := bcModule.funcs.foldl
    (fun acc f =>
      if f.isDecl && decide (numUses bcModule f.name = 0) then getOrInsertFunction acc f else acc)
    module
  linkOnlyNeeded m1 bcModule

/-- lAddDeclarationsToModule: retarget the (private copy of the) library
module to the destination's triple and data layout, then declare in the
destination every library function it does not already have.  Returns the
adapted library copy and the updated destination. -/
def lAddDeclarationsToModule (bcModule module : Module) : Module × Module :=
  let bc := { bcModule with triple := module.triple, dataLayout := module.dataLayout }
  let m := bc.funcs.foldl
    (fun acc f => if hasFunc acc f.name then acc else getOrInsertFunction acc f)
    module
  (bc, m)

/-- A precompiled library as supplied by the external registry. -/
structure BitcodeLib where
  mod : Module
deriving DecidableEq, Repr

/-- Modelled from the spec: BitcodeLib::getLLVMModule (target registry,
not part of the shown sources) exposes the library's IR module; the
Precompiled Library instance itself is borrowed read-only, so the module
handed out is a private per-composition copy of the stored bitcode. -/
def BitcodeLib.getLLVMModule (lib : BitcodeLib) : Module := lib.mod

/-- The external Precompiled Library Registry, already resolved for the
current target selectors (kind, OS, architecture, ISA variant). -/
structure Registry where
  stdlib : BitcodeLib
  commonBuiltins : BitcodeLib
  targetBuiltins : BitcodeLib
  dispatch : BitcodeLib
deriving DecidableEq, Repr

/-- The composition-wide state: the registry of precompiled libraries, the
target module under construction, and the relevant globals (g->...). -/
structure CompState where
  registry : Registry
  target : Module
  isMultiTargetCompilation : Bool
  targetSuffix : String
  dataLayout : String
  includeStdlib : Bool
  env : Env
deriving DecidableEq, Repr

/-- lLinkStdlib: fetch the standard library, apply multi-target renaming
to the private copy, record its function names, merge it into the target
module and demote those names to internal linkage. -/
def lLinkStdlib (st : CompState) : CompState :=
  let stdlibBCModule := st.registry.stdlib.getLLVMModule
  let stdlibBCModule :=
    if st.isMultiTargetCompilation then
      { stdlibBCModule with
        funcs := stdlibBCModule.funcs.map (fun F =>
          if !F.isDecl && !(lStartsWithLLVM F.name) then { F with name := F.name ++ st.targetSuffix }
          else F) }
    else stdlibBCModule
  let stdlibFunctions := stdlibBCModule.funcs.map Func.name
  let target := lAddBitcodeToModule stdlibBCModule st.target
  { st with target := lSetAsInternal target stdlibFunctions }

/-- lLinkCommonBuiltins: merge the common builtins library and demote the
fixed set of known common-builtin names to internal linkage. -/
def lLinkCommonBuiltins (st : CompState) : CompState :=
  let builtinsBCModule := st.registry.commonBuiltins.getLLVMModule
  let target := lAddBitcodeToModule builtinsBCModule st.target
  { st with target := lSetAsInternal target ["__do_print", "__num_cores"] }

/-- lLinkTargetBuiltins: collect every non-llvm-namespace function name of
the target-builtins library, retarget the private copy's data layout,
merge it, and demote the collected names to internal linkage. -/
def lLinkTargetBuiltins (st : CompState) : CompState :=
  let targetBCModule := st.registry.targetBuiltins.getLLVMModule
  let targetBuiltins :=
    (targetBCModule.funcs.filter (fun F => !(lStartsWithLLVM F.name))).map Func.name
  let targetBCModule := { targetBCModule with dataLayout := st.dataLayout }
  let target := lAddBitcodeToModule targetBCModule st.target
  { st with target := lSetAsInternal target targetBuiltins }

/-- lCheckModuleIntrinsics over an explicit function list: every intrinsic
in the llvm.x86 namespace must have a resolvable identifier (else FATAL)
whose canonical pointer-to-function type equals the function's type (else
Assert); other functions are not checked. -/
def lCheckIntrinsicsFuncs (idOf : String → Nat) (typeOf : Nat → Ty) :
    List Func → Except CompErr Unit
  | [] => Except.ok ()
  | func :: rest =>
    if func.isIntrinsicF then
      if strStartsWith func.name "llvm.x86." then
        if idOf func.name = 0 then Except.error (CompErr.intrinsicNotFound func.name)
        else if func.ty = Ty.ptr (typeOf (idOf func.name)) then
          lCheckIntrinsicsFuncs idOf typeOf rest
        else Except.error CompErr.assertFailed
      else lCheckIntrinsicsFuncs idOf typeOf rest
    else lCheckIntrinsicsFuncs idOf typeOf rest

/-- lCheckModuleIntrinsics: the intrinsic signature cross-check over the
assembled module.  `idOf` is the backend's intrinsic-identifier resolution
(0 meaning not found) and `typeOf` its identifier-to-canonical-type
table (llvm::Intrinsic::getType). -/
def lCheckModuleIntrinsics (idOf : String → Nat) (typeOf : Nat → Ty) (module : Module) :
    Except CompErr Unit :=
  lCheckIntrinsicsFuncs idOf typeOf module.funcs

/-- The stages of LinkStandardLibraries that run after the
standard-library stage, identically in both includeStdlib modes: common
builtins link and prune, target builtins link and prune, global-variable
demotion, intrinsic signature check. -/
def afterStdlibStages (idOf : String → Nat) (typeOf : Nat → Ty) (st : CompState) :
    Except CompErr CompState := do
  let st2 := lLinkCommonBuiltins st
  let st2 := { st2 with target := lRemoveUnused st2.target }
  let st3 := lLinkTargetBuiltins st2
  let st3 := { st3 with target := lRemoveUnused st3.target }
  let st4 := { st3 with target := lSetInternalLinkageGlobals st3.target }
  let _ ← lCheckModuleIntrinsics idOf typeOf st4.target
  Except.ok st4

/-- LinkStandardLibraries: the Module Composer entry point. -/
def LinkStandardLibraries (idOf : String → Nat) (typeOf : Nat → Ty) (st : CompState) :
    Except CompErr CompState := do
  let st1 ←
    if st.includeStdlib then do
      let st' := lLinkStdlib st
      let t := lAddPersistentToLLVMUsed st'.env st'.target
      let t := lRemoveUnused t
      let t ← lRemoveUnusedPersistentFunctions st'.env t
      Except.ok { st' with target := t }
    else
      Except.ok { st with target := lAddPersistentToLLVMUsed st.env st.target }
  let st2 := lLinkCommonBuiltins st1
  let st2 := { st2 with target := lRemoveUnused st2.target }
  let st3 := lLinkTargetBuiltins st2
  let st3 := { st3 with target := lRemoveUnused st3.target }
  let st4 := { st3 with target := lSetInternalLinkageGlobals st3.target }
  let _ ← lCheckModuleIntrinsics idOf typeOf st4.target
  Except.ok st4

/-- LinkDispatcher: fetch the dispatch library, declare its symbols in the
target module, link it in with the same bitcode-merge primitive.  No
pruning here. -/
def LinkDispatcher (st : CompState) : CompState :=
  let dispatchBCModule := st.registry.dispatch.getLLVMModule
  let p := lAddDeclarationsToModule dispatchBCModule st.target
  { st with target := lAddBitcodeToModule p.1 p.2 }

/-! The intrinsic-symbol adaptation layer (CreateISPCSymbolForLLVMIntrinsic
and lLLVMTypeToISPCType): translating the LLVM type of an externally
declared intrinsic into the ispc type system. -/

/-- The distinguished LLVM type identities lLLVMTypeToISPCType compares
against (the LLVMTypes::* constants); `unrepresentable` stands for every
other LLVM type. -/
inductive LLVMType where
  | VoidType | BoolType
  | Int8Type | Int16Type | Int32Type | Int64Type
  | Float16Type | FloatType | DoubleType
  | Int8VectorType | Int16VectorType | Int32VectorType | Int64VectorType
  | Float16VectorType | FloatVectorType | DoubleVectorType
  | MaskType
  | Int8PointerType | Int16PointerType | Int32PointerType | Int64PointerType
  | Float16PointerType | FloatPointerType | DoublePointerType
  | Int8VectorPointerType | Int16VectorPointerType | Int32VectorPointerType
  | Int64VectorPointerType
  | Float16VectorPointerType | FloatVectorPointerType | DoubleVectorPointerType
  | unrepresentable
deriving DecidableEq, Repr

/-- The ispc atomic types lLLVMTypeToISPCType can produce. -/
inductive AtomicVariety where
  | Void
  | UniformBool | UniformInt8 | UniformUInt8 | UniformInt16 | UniformUInt16
  | UniformInt32 | UniformUInt32 | UniformInt64 | UniformUInt64
  | UniformFloat16 | UniformFloat | UniformDouble
  | VaryingBool | VaryingInt8 | VaryingUInt8 | VaryingInt16 | VaryingUInt16
  | VaryingInt32 | VaryingUInt32 | VaryingInt64 | VaryingUInt64
  | VaryingFloat16 | VaryingFloat | VaryingDouble
deriving DecidableEq, Repr

/-- An ispc type as produced by the translation: an atomic type or a
uniform pointer to an atomic type (PointerType::GetUniform). -/
inductive ISPCType where
  | atomic (t : AtomicVariety) : ISPCType
  | uniformPointerTo (t : AtomicVariety) : ISPCType
deriving DecidableEq, Repr

/-- lLLVMTypeToISPCType: find the equivalent ispc type of an LLVM type;
none when the type is not representable in ispc. -/
def lLLVMTypeToISPCType (t : LLVMType) (intAsUnsigned : Bool) : Option ISPCType :=
  match t with
  | LLVMType.VoidType => some (ISPCType.atomic AtomicVariety.Void)
  | LLVMType.BoolType => some (ISPCType.atomic AtomicVariety.UniformBool)
  | LLVMType.Int8Type =>
    some (ISPCType.atomic (if intAsUnsigned then AtomicVariety.UniformUInt8 else AtomicVariety.UniformInt8))
  | LLVMType.Int16Type =>
    some (ISPCType.atomic (if intAsUnsigned then AtomicVariety.UniformUInt16 else AtomicVariety.UniformInt16))
  | LLVMType.Int32Type =>
    some (ISPCType.atomic (if intAsUnsigned then AtomicVariety.UniformUInt32 else AtomicVariety.UniformInt32))
  | LLVMType.Float16Type => some (ISPCType.atomic AtomicVariety.UniformFloat16)
  | LLVMType.FloatType => some (ISPCType.atomic AtomicVariety.UniformFloat)
  | LLVMType.DoubleType => some (ISPCType.atomic AtomicVariety.UniformDouble)
  | LLVMType.Int64Type =>
    some (ISPCType.atomic (if intAsUnsigned then AtomicVariety.UniformUInt64 else AtomicVariety.UniformInt64))
  | LLVMType.Int8VectorType =>
    some (ISPCType.atomic (if intAsUnsigned then AtomicVariety.VaryingUInt8 else AtomicVariety.VaryingInt8))
  | LLVMType.Int16VectorType =>
    some (ISPCType.atomic (if intAsUnsigned then AtomicVariety.VaryingUInt16 else AtomicVariety.VaryingInt16))
  | LLVMType.Int32VectorType =>
    some (ISPCType.atomic (if intAsUnsigned then AtomicVariety.VaryingUInt32 else AtomicVariety.VaryingInt32))
  | LLVMType.Float16VectorType => some (ISPCType.atomic AtomicVariety.VaryingFloat16)
  | LLVMType.FloatVectorType => some (ISPCType.atomic AtomicVariety.VaryingFloat)
  | LLVMType.DoubleVectorType => some (ISPCType.atomic AtomicVariety.VaryingDouble)
  | LLVMType.Int64VectorType =>
    some (ISPCType.atomic (if intAsUnsigned then AtomicVariety.VaryingUInt64 else AtomicVariety.VaryingInt64))
  | LLVMType.MaskType => some (ISPCType.atomic AtomicVariety.VaryingBool)
  | LLVMType.Int8PointerType =>
    some (ISPCType.uniformPointerTo (if intAsUnsigned then AtomicVariety.UniformUInt8 else AtomicVariety.UniformInt8))
  | LLVMType.Int16PointerType =>
    some (ISPCType.uniformPointerTo (if intAsUnsigned then AtomicVariety.UniformUInt16 else AtomicVariety.UniformInt16))
  | LLVMType.Int32PointerType =>
    some (ISPCType.uniformPointerTo (if intAsUnsigned then AtomicVariety.UniformUInt32 else AtomicVariety.UniformInt32))
  | LLVMType.Int64PointerType =>
    some (ISPCType.uniformPointerTo (if intAsUnsigned then AtomicVariety.UniformUInt64 else AtomicVariety.UniformInt64))
  | LLVMType.Float16PointerType => some (ISPCType.uniformPointerTo AtomicVariety.UniformFloat16)
  | LLVMType.FloatPointerType => some (ISPCType.uniformPointerTo AtomicVariety.UniformFloat)
  | LLVMType.DoublePointerType => some (ISPCType.uniformPointerTo AtomicVariety.UniformDouble)
  | LLVMType.Int8VectorPointerType =>
    some (ISPCType.uniformPointerTo (if intAsUnsigned then AtomicVariety.VaryingUInt8 else AtomicVariety.VaryingInt8))
  | LLVMType.Int16VectorPointerType =>
    some (ISPCType.uniformPointerTo (if intAsUnsigned then AtomicVariety.VaryingUInt16 else AtomicVariety.VaryingInt16))
  | LLVMType.Int32VectorPointerType =>
    some (ISPCType.uniformPointerTo (if intAsUnsigned then AtomicVariety.VaryingUInt32 else AtomicVariety.VaryingInt32))
  | LLVMType.Int64VectorPointerType =>
    some (ISPCType.uniformPointerTo (if intAsUnsigned then AtomicVariety.VaryingUInt64 else AtomicVariety.VaryingInt64))
  | LLVMType.Float16VectorPointerType => some (ISPCType.uniformPointerTo AtomicVariety.VaryingFloat16)
  | LLVMType.FloatVectorPointerType => some (ISPCType.uniformPointerTo AtomicVariety.VaryingFloat)
  | LLVMType.DoubleVectorPointerType => some (ISPCType.uniformPointerTo AtomicVariety.VaryingDouble)
  | LLVMType.unrepresentable => none

/-- The LLVM signature of an externally declared intrinsic-like function
(llvm::Function::getFunctionType view). -/
structure LLVMFunctionSig where
  name : String
  returnType : LLVMType
  paramTypes : List LLVMType
deriving DecidableEq, Repr

/-- An ispc function symbol as created for an LLVM intrinsic. -/
structure Symbol where
  name : String
  returnType : ISPCType
  argTypes : List ISPCType
deriving DecidableEq, Repr

/-- The symbol table's intrinsics section. -/
structure SymbolTable where
  intrinsics : List Symbol
deriving DecidableEq, Repr

/-- SymbolTable::LookupIntrinsics. -/
def SymbolTable.lookupIntrinsics (tbl : SymbolTable) (func : LLVMFunctionSig) : Option Symbol :=
  tbl.intrinsics.find? (fun s => s.name == func.name)

/-- SymbolTable::AddIntrinsics. -/
def SymbolTable.addIntrinsics (tbl : SymbolTable) (sym : Symbol) : SymbolTable :=
  { tbl with intrinsics := tbl.intrinsics ++ [sym] }

/-- A user-facing diagnostic (Error(...)), reported with the symbol name
and, for parameters, the offending parameter index. -/
inductive Diagnostic where
  | returnNotRepresentable (intrinsicName : String) : Diagnostic
  | paramNotRepresentable (paramIndex : Nat) (intrinsicName : String) : Diagnostic
deriving DecidableEq, Repr

/-- Translate the parameter types in order; on the first unrepresentable
one report its index. -/
def translateParamTypes : List LLVMType → Nat → Except Nat (List ISPCType)
  | [], _ => Except.ok []
  | t :: ts, j =>
    match lLLVMTypeToISPCType t false with
    | none => Except.error j
    | some ty => (translateParamTypes ts (j + 1)).map (fun r => ty :: r)

/-- CreateISPCSymbolForLLVMIntrinsic: adapt an externally declared
intrinsic for use from ispc.  Returns the symbol made available (none when
a type is not representable), the user-facing diagnostics emitted, and the
updated symbol table.  Emitting a diagnostic does not abort compilation:
the function returns normally in every case. -/
def CreateISPCSymbolForLLVMIntrinsic (func : LLVMFunctionSig) (symbolTable : SymbolTable) :
    Option Symbol × List Diagnostic × SymbolTable :=
  match symbolTable.lookupIntrinsics func with
  | some existingSym => (some existingSym, [], symbolTable)
  | none =>
    match lLLVMTypeToISPCType func.returnType false with
    | none => (none, [Diagnostic.returnNotRepresentable func.name], symbolTable)
    | some returnType =>
      match translateParamTypes func.paramTypes 0 with
      | Except.error j => (none, [Diagnostic.paramNotRepresentable j func.name], symbolTable)
      | Except.ok argTypes =>
        let sym : Symbol := { name := func.name, returnType := returnType, argTypes := argTypes }
        (some sym, [], symbolTable.addIntrinsics sym)

/-! Concrete instances used to evaluate the development on explicit
inputs. -/

/-- A default LLVM value type for sample functions. -/
def sampleTy : Ty := Ty.scalar 0

/-- A defined (non-declaration) sample function. -/
def mkDefined (n : String) (lk : Linkage) (cs : List String) : Func :=
  { name := n, isDecl := false, linkage := lk, calls := cs, gvarRefs := [], ty := sampleTy }

/-- The empty module. -/
def emptyModule : Module :=
  { funcs := [], gvars := [], markers := [], triple := "", dataLayout := "" }

/-- A registry whose four libraries are all empty modules. -/
def emptyRegistry : Registry :=
  { stdlib := ⟨emptyModule⟩, commonBuiltins := ⟨emptyModule⟩,
    targetBuiltins := ⟨emptyModule⟩, dispatch := ⟨emptyModule⟩ }

/-- A registry table with one two-member persistent group. -/
def envGroupAB : Env :=
  { persistentGroups := [("g", ["A", "B"])], persistentFuncs := [] }

/-- A registry table with a single persistent function A. -/
def envPersistA : Env :=
  { persistentGroups := [], persistentFuncs := ["A"] }

/-- An empty registry table. -/
def envNone : Env :=
  { persistentGroups := [], persistentFuncs := [] }

/-- Module in which group member A is externally visible and also used,
but only from the dead internal function d, and member B is internal and
unreferenced. -/
def modDeadCaller : Module :=
  { emptyModule with
    funcs := [mkDefined "A" Linkage.external [],
              mkDefined "B" Linkage.internal [],
              mkDefined "d" Linkage.internal ["A"]] }

/-- Module that already holds a preservation marker when the anchor phase
runs. -/
def modWithMarker : Module :=
  { emptyModule with
    funcs := [mkDefined "A" Linkage.internal []]
    markers := [{ name := "llvm.compiler.used", entries := [Entry.fnRef "A"] }] }

/-- Module holding only the internal persistent function A. -/
def modPersistOnly : Module :=
  { emptyModule with funcs := [mkDefined "A" Linkage.internal []] }

/-- Module whose preservation marker holds an operand that does not
resolve to a function and has exactly one use (the marker itself). -/
def modBadOperand : Module :=
  { emptyModule with
    markers := [{ name := "llvm.compiler.used", entries := [Entry.other 1] }] }

/-- Module in which group member A is called by the externally visible
function main, and member B is internal and unreferenced. -/
def modGoodCaller : Module :=
  { emptyModule with
    funcs := [mkDefined "A" Linkage.internal [],
              mkDefined "B" Linkage.internal [],
              mkDefined "main" Linkage.external ["A"]] }

/-- The module obtained by one protect-prune run on modPersistOnly. -/
def ppOnce : Module :=
  { emptyModule with
    funcs := [mkDefined "A" Linkage.internal []]
    markers := [{ name := "llvm.compiler.used", entries := [Entry.fnRef "A"] }] }

/-- The module obtained by a second protect-prune run on ppOnce: the
anchor of the second run leaves an extra, uniquified marker behind. -/
def ppTwice : Module :=
  { emptyModule with
    funcs := [mkDefined "A" Linkage.internal []]
    markers := [{ name := "llvm.compiler.used.", entries := [Entry.fnRef "A"] },
                { name := "llvm.compiler.used", entries := [Entry.fnRef "A"] }] }

/-- A composition state over empty modules, with includeStdlib = false. -/
def sampleState : CompState :=
  { registry := emptyRegistry, target := emptyModule, isMultiTargetCompilation := false,
    targetSuffix := "", dataLayout := "", includeStdlib := false, env := envNone }

/-! Reachability theory for the dead-code-elimination model. -/

/-- Liveness as an inductive closure: a name is live when it is a root or
a callee of a live module function. -/
inductive ReachesFrom (M : Module) (rs : List String) : String → Prop
  | root (x : String) : x ∈ rs → ReachesFrom M rs x
  | step (f : Func) (x : String) :
      f ∈ M.funcs → ReachesFrom M rs f.name → x ∈ f.calls → ReachesFrom M rs x

/-- Liveness from the module's own GlobalDCE roots. -/
def Reaches (M : Module) (x : String) : Prop := ReachesFrom M M.roots x

lemma mem_reachStep {M : Module} {s : List String} {x : String} :
    x ∈ reachStep M s ↔ x ∈ s ∨ ∃ f ∈ M.funcs, f.name ∈ s ∧ x ∈ f.calls := by
  simp [reachStep, List.mem_filter, List.mem_flatMap]
  constructor
  · rintro (h | ⟨f, ⟨hf, hn⟩, hx⟩)
    · exact Or.inl h
    · exact Or.inr ⟨f, hf, hn, hx⟩
  · rintro (h | ⟨f, hf, hn, hx⟩)
    · exact Or.inl h
    · exact Or.inr ⟨f, ⟨hf, hn⟩, hx⟩

lemma subset_reachStep {M : Module} {s : List String} : s ⊆ reachStep M s := by
  intro x hx
  exact mem_reachStep.mpr (Or.inl hx)

lemma reachIterFrom_subset_succ {M : Module} {rs : List String} {n : Nat} :
    reachIterFrom M rs n ⊆ reachIterFrom M rs (n + 1) :=
  subset_reachStep

lemma reachIterFrom_subset_of_le {M : Module} {rs : List String} {m n : Nat} (h : m ≤ n) :
    reachIterFrom M rs m ⊆ reachIterFrom M rs n := by
  induction n with
  | zero => simp_all
  | succ n ih =>
    rcases Nat.lt_or_ge m (n + 1) with h' | h'
    · exact fun x hx => reachIterFrom_subset_succ (ih (Nat.lt_succ_iff.mp h') hx)
    · have : m = n + 1 := Nat.le_antisymm h h'
      subst this
      exact fun x hx => hx

lemma mem_reachIterFrom_succ {M : Module} {rs : List String} {n : Nat} {x : String} :
    x ∈ reachIterFrom M rs (n + 1) ↔
      x ∈ reachIterFrom M rs n
        ∨ ∃ f ∈ M.funcs, f.name ∈ reachIterFrom M rs n ∧ x ∈ f.calls := by
  exact mem_reachStep

lemma reachesFrom_of_mem_reachIterFrom {M : Module} {rs : List String} {n : Nat} {x : String}
    (h : x ∈ reachIterFrom M rs n) : ReachesFrom M rs x := by
  induction n generalizing x with
  | zero => exact ReachesFrom.root x h
  | succ n ih =>
    rcases mem_reachIterFrom_succ.mp h with h' | ⟨f, hf, hn, hx⟩
    · exact ih h'
    · exact ReachesFrom.step f x hf (ih hn) hx

/-- Propagation stabilizes at step `n`. -/
def stabAt (M : Module) (rs : List String) (n : Nat) : Prop :=
  ∀ x, x ∈ reachIterFrom M rs (n + 1) → x ∈ reachIterFrom M rs n

lemma reachStep_mem_congr {M : Module} {s t : List String}
    (h : ∀ y, y ∈ s ↔ y ∈ t) (x : String) : x ∈ reachStep M s ↔ x ∈ reachStep M t := by
  rw [mem_reachStep, mem_reachStep]
  constructor
  · rintro (hx | ⟨f, hf, hn, hx⟩)
    · exact Or.inl ((h x).mp hx)
    · exact Or.inr ⟨f, hf, (h f.name).mp hn, hx⟩
  · rintro (hx | ⟨f, hf, hn, hx⟩)
    · exact Or.inl ((h x).mpr hx)
    · exact Or.inr ⟨f, hf, (h f.name).mpr hn, hx⟩

lemma stab_propagates {M : Module} {rs : List String} {n : Nat} (hstab : stabAt M rs n) :
    ∀ m, n ≤ m → ∀ x, x ∈ reachIterFrom M rs m ↔ x ∈ reachIterFrom M rs n := by
  intro m hm
  induction m with
  | zero =>
    have : n = 0 := Nat.le_zero.mp hm
    subst this
    exact fun x => Iff.rfl
  | succ m ih =>
    rcases Nat.lt_or_ge n (m + 1) with h' | h'
    · have hnm : n ≤ m := Nat.lt_succ_iff.mp h'
      intro x
      have hcongr := reachStep_mem_congr (M := M) (ih hnm) x
      have : x ∈ reachIterFrom M rs (m + 1) ↔ x ∈ reachIterFrom M rs (n + 1) := hcongr
      constructor
      · intro hx
        exact hstab x (this.mp hx)
      · intro hx
        exact this.mpr (reachIterFrom_subset_succ hx)
    · have : n = m + 1 := Nat.le_antisymm hm h'
      subst this
      exact fun x => Iff.rfl

lemma reachIterFrom_toFinset_subset {M : Module} {rs : List String} (n : Nat) :
    (reachIterFrom M rs n).toFinset ⊆ (rs ++ M.funcs.flatMap Func.calls).toFinset := by
  induction n with
  | zero =>
    intro x hx
    simp only [List.mem_toFinset] at hx ⊢
    exact List.mem_append_left _ hx
  | succ n ih =>
    intro x hx
    simp only [List.mem_toFinset] at hx ⊢
    rcases mem_reachIterFrom_succ.mp hx with h' | ⟨f, hf, _, hx'⟩
    · have := ih (List.mem_toFinset.mpr h')
      simpa using this
    · exact List.mem_append_right _ (List.mem_flatMap.mpr ⟨f, hf, hx'⟩)

lemma card_growth {M : Module} {rs : List String} (N : Nat)
    (h : ∀ k, k < N → ¬ stabAt M rs k) :
    N ≤ (reachIterFrom M rs N).toFinset.card := by
  induction N with
  | zero => exact Nat.zero_le _
  | succ N ih =>
    have hN : N ≤ (reachIterFrom M rs N).toFinset.card :=
      ih (fun k hk => h k (Nat.lt_succ_of_lt hk))
    have hnostab : ¬ stabAt M rs N := h N (Nat.lt_succ_self N)
    have hx : ∃ x, x ∈ reachIterFrom M rs (N + 1) ∧ x ∉ reachIterFrom M rs N := by
      by_contra hc
      push_neg at hc
      exact hnostab (fun x hx => hc x hx)
    obtain ⟨x, hx1, hx2⟩ := hx
    have hsub : (reachIterFrom M rs N).toFinset ⊂ (reachIterFrom M rs (N + 1)).toFinset := by
      constructor
      · intro y hy
        simp only [List.mem_toFinset] at hy ⊢
        exact reachIterFrom_subset_succ hy
      · intro hcon
        exact hx2 (List.mem_toFinset.mp (hcon (List.mem_toFinset.mpr hx1)))
    have := Finset.card_lt_card hsub
    omega

lemma exists_stabAt (M : Module) (rs : List String) :
    ∃ n, n < reachFuel M rs ∧ stabAt M rs n := by
  by_contra hc
  push_neg at hc
  have hgrow := @card_growth M rs (reachFuel M rs) (fun k hk => hc k hk)
  have hle : (reachIterFrom M rs (reachFuel M rs)).toFinset.card
      ≤ (rs ++ M.funcs.flatMap Func.calls).toFinset.card :=
    Finset.card_le_card (reachIterFrom_toFinset_subset _)
  have hlen : (rs ++ M.funcs.flatMap Func.calls).toFinset.card
      ≤ (rs ++ M.funcs.flatMap Func.calls).length :=
    List.toFinset_card_le _
  simp only [reachFuel] at hgrow hle
  omega

lemma reachFrom_saturated {M : Module} {rs : List String} (x : String) :
    x ∈ reachStep M (reachFrom M rs) ↔ x ∈ reachFrom M rs := by
  obtain ⟨n, hn, hstab⟩ := exists_stabAt M rs
  have hfuel : ∀ y, y ∈ reachIterFrom M rs (reachFuel M rs) ↔ y ∈ reachIterFrom M rs n :=
    stab_propagates hstab _ (Nat.le_of_lt hn)
  have h1 : x ∈ reachStep M (reachFrom M rs) ↔ x ∈ reachStep M (reachIterFrom M rs n) :=
    reachStep_mem_congr hfuel x
  have h2 : x ∈ reachStep M (reachIterFrom M rs n) ↔ x ∈ reachIterFrom M rs n := by
    constructor
    · exact hstab x
    · intro hx
      exact subset_reachStep hx
  rw [h1, h2, reachFrom]
  exact (hfuel x).symm

lemma reachesFrom_iff_mem {M : Module} {rs : List String} {x : String} :
    ReachesFrom M rs x ↔ x ∈ reachFrom M rs := by
  constructor
  · intro h
    induction h with
    | root y hy =>
      exact reachIterFrom_subset_of_le (Nat.zero_le _) hy
    | step f y hf _ hy ih =>
      exact (reachFrom_saturated y).mp (mem_reachStep.mpr (Or.inr ⟨f, hf, ih, hy⟩))
  · exact reachesFrom_of_mem_reachIterFrom

lemma reaches_iff_mem_reachList {M : Module} {x : String} :
    Reaches M x ↔ x ∈ reachList M :=
  reachesFrom_iff_mem

lemma reachesFrom_mono {M N : Module} {rs rt : List String} {x : String}
    (hf : ∀ f, f ∈ M.funcs → f ∈ N.funcs) (hr : ∀ y, y ∈ rs → y ∈ rt)
    (h : ReachesFrom M rs x) : ReachesFrom N rt x := by
  induction h with
  | root y hy => exact ReachesFrom.root y (hr y hy)
  | step f y hfm _ hy ih => exact ReachesFrom.step f y (hf f hfm) ih hy

/-! Basic facts about the module model and pruning. -/

lemma hasFunc_iff {M : Module} {n : String} :
    hasFunc M n = true ↔ ∃ f ∈ M.funcs, f.name = n := by
  simp [hasFunc]

lemma mem_fnNames {mk : Marker} {n : String} :
    n ∈ mk.fnNames ↔ Entry.fnRef n ∈ mk.entries := by
  simp only [Marker.fnNames, List.mem_filterMap]
  constructor
  · rintro ⟨e, he, hn⟩
    cases e with
    | fnRef m =>
      simp only [Option.some.injEq] at hn
      subst hn
      exact he
    | other u => simp at hn
  · intro h
    exact ⟨Entry.fnRef n, h, rfl⟩

lemma mem_roots {M : Module} {y : String} :
    y ∈ M.roots ↔
      (∃ f ∈ M.funcs, f.linkage ≠ Linkage.internal ∧ f.name = y)
        ∨ ∃ mk ∈ M.markers, Entry.fnRef y ∈ mk.entries := by
  simp only [Module.roots, List.mem_append, List.mem_map, List.mem_filter,
    List.mem_flatMap, bne_iff_ne, ne_eq]
  constructor
  · rintro (⟨f, ⟨hf, hl⟩, hn⟩ | ⟨mk, hmk, hy⟩)
    · exact Or.inl ⟨f, hf, hl, hn⟩
    · exact Or.inr ⟨mk, hmk, mem_fnNames.mp hy⟩
  · rintro (⟨f, hf, hl, hn⟩ | ⟨mk, hmk, hy⟩)
    · exact Or.inl ⟨f, ⟨hf, hl⟩, hn⟩
    · exact Or.inr ⟨mk, hmk, mem_fnNames.mpr hy⟩

lemma mem_prune_funcs {M : Module} {f : Func} :
    f ∈ (lRemoveUnused M).funcs ↔ f ∈ M.funcs ∧ f.name ∈ reachList M := by
  simp [lRemoveUnused, List.mem_filter]

lemma prune_markers (M : Module) : (lRemoveUnused M).markers = M.markers := rfl

lemma prune_funcs_sublist (M : Module) : (lRemoveUnused M).funcs.Sublist M.funcs :=
  List.filter_sublist _

lemma subset_reachFrom {M : Module} {rs : List String} : rs ⊆ reachFrom M rs :=
  reachIterFrom_subset_of_le (Nat.zero_le _)

lemma roots_subset_reachList (M : Module) : M.roots ⊆ reachList M :=
  subset_reachFrom

lemma prune_roots_sup {M : Module} {y : String} (h : y ∈ M.roots) :
    y ∈ (lRemoveUnused M).roots := by
  rcases mem_roots.mp h with ⟨f, hf, hl, hn⟩ | ⟨mk, hmk, hy⟩
  · refine mem_roots.mpr (Or.inl ⟨f, ?_, hl, hn⟩)
    refine mem_prune_funcs.mpr ⟨hf, ?_⟩
    rw [hn]
    exact roots_subset_reachList M h
  · exact mem_roots.mpr (Or.inr ⟨mk, by rw [prune_markers]; exact hmk, hy⟩)

lemma reaches_prune {M : Module} {x : String} (h : Reaches M x) :
    Reaches (lRemoveUnused M) x := by
  induction h with
  | root y hy => exact ReachesFrom.root y (prune_roots_sup hy)
  | step f y hf hr hy ih =>
    have hfr : f.name ∈ reachList M := reaches_iff_mem_reachList.mp hr
    exact ReachesFrom.step f y (mem_prune_funcs.mpr ⟨hf, hfr⟩) ih hy

lemma prune_funcs_closed {M : Module} {f : Func} (h : f ∈ (lRemoveUnused M).funcs) :
    f.name ∈ reachList (lRemoveUnused M) := by
  obtain ⟨hf, hr⟩ := mem_prune_funcs.mp h
  exact reaches_iff_mem_reachList.mp (reaches_prune (reaches_iff_mem_reachList.mpr hr))

lemma prune_of_closed {M : Module} (h : ∀ f ∈ M.funcs, f.name ∈ reachList M) :
    (lRemoveUnused M).funcs = M.funcs := by
  simp only [lRemoveUnused]
  refine List.filter_eq_self.mpr (fun f hf => ?_)
  simpa using h f hf

lemma le_sum_nat {l : List Nat} {x : Nat} (h : x ∈ l) : x ≤ l.sum :=
  List.le_sum_of_mem h

lemma fnCount_pos {mk : Marker} {n : String} (h : Entry.fnRef n ∈ mk.entries) :
    1 ≤ mk.fnCount n := by
  rw [Marker.fnCount]
  rw [Nat.succ_le_iff, List.countP_pos_iff]
  exact ⟨Entry.fnRef n, h, by simp⟩

lemma numUses_ge_one_of_marker {M : Module} {mk : Marker} {n : String}
    (hmk : mk ∈ M.markers) (h : Entry.fnRef n ∈ mk.entries) : 1 ≤ numUses M n := by
  have h1 : mk.fnCount n ∈ M.markers.map (fun mk => mk.fnCount n) :=
    List.mem_map.mpr ⟨mk, hmk, rfl⟩
  have := le_sum_nat h1
  have := fnCount_pos h
  simp only [numUses]
  omega

lemma numUses_ge_one_of_call {M : Module} {f : Func} {n : String}
    (hf : f ∈ M.funcs) (h : n ∈ f.calls) : 1 ≤ numUses M n := by
  have h1 : f.calls.count n ∈ M.funcs.map (fun f => f.calls.count n) :=
    List.mem_map.mpr ⟨f, hf, rfl⟩
  have := le_sum_nat h1
  have h2 : 0 < f.calls.count n := List.count_pos_iff.mpr h
  simp only [numUses]
  omega

lemma numUses_zero_no_call {M : Module} {n : String} (h : numUses M n = 0) :
    ∀ f ∈ M.funcs, n ∉ f.calls := by
  intro f hf hn
  have := numUses_ge_one_of_call hf hn
  omega

lemma numUses_zero_no_marker {M : Module} {n : String} (h : numUses M n = 0) :
    ∀ mk ∈ M.markers, Entry.fnRef n ∉ mk.entries := by
  intro mk hmk hn
  have := numUses_ge_one_of_marker hmk hn
  omega

lemma not_reachList_of_unreferenced {M : Module} {x : String}
    (hroot : x ∉ M.roots) (hcall : ∀ f ∈ M.funcs, x ∉ f.calls) :
    x ∉ reachList M := by
  have : ∀ n, x ∉ reachIterFrom M M.roots n := by
    intro n
    induction n with
    | zero => exact hroot
    | succ n ih =>
      intro hx
      rcases mem_reachIterFrom_succ.mp hx with h | ⟨f, hf, _, hxc⟩
      · exact ih h
      · exact hcall f hf hxc
  exact this _

lemma numUses_prune_le (M : Module) (n : String) :
    numUses (lRemoveUnused M) n ≤ numUses M n := by
  simp only [numUses, prune_markers]
  have hsub : ((lRemoveUnused M).funcs.map (fun f => f.calls.count n)).Sublist
      (M.funcs.map (fun f => f.calls.count n)) :=
    (prune_funcs_sublist M).map _
  have := List.Sublist.sum_le_sum hsub (fun a _ => Nat.zero_le a)
  omega

/-! Facts about the anchor, collect, update and survival machinery,
shared by the group-atomicity and idempotence developments. -/

lemma except_bind_ok {ε α β : Type} {x : Except ε α} {f : α → Except ε β} {b : β}
    (h : (x >>= f) = Except.ok b) : ∃ a, x = Except.ok a ∧ f a = Except.ok b := by
  cases x with
  | error e => cases h
  | ok a => exact ⟨a, rfl, h⟩

lemma except_bind_pure_assoc {ε α β γ : Type} (x : Except ε α) (f : α → β)
    (g : β → Except ε γ) :
    (x >>= fun a => (Except.ok (f a) >>= g)) = x.bind (fun a => g (f a)) := by
  cases x <;> rfl

lemma isEmpty_false_of_mem {α : Type} {l : List α} {x : α} (h : x ∈ l) :
    l.isEmpty = false := by
  cases l
  · simp at h
  · rfl

lemma funcPtr_filterMap_mem {M : Module} {l : List String} {e : Entry}
    (h : e ∈ l.filterMap (lFuncAsConstInt8Ptr M)) :
    ∃ n, n ∈ l ∧ e = Entry.fnRef n ∧ hasFunc M n = true := by
  obtain ⟨n, hn, hsome⟩ := List.mem_filterMap.mp h
  rw [lFuncAsConstInt8Ptr] at hsome
  by_cases hf : hasFunc M n = true
  · rw [if_pos hf] at hsome
    cases hsome
    exact ⟨n, hn, rfl, hf⟩
  · rw [if_neg hf] at hsome
    cases hsome

lemma funcPtr_filterMap_mem_of {M : Module} {l : List String} {n : String}
    (hn : n ∈ l) (hf : hasFunc M n = true) :
    Entry.fnRef n ∈ l.filterMap (lFuncAsConstInt8Ptr M) := by
  rw [List.mem_filterMap]
  exact ⟨n, hn, by rw [lFuncAsConstInt8Ptr, if_pos hf]⟩

lemma anchor_funcs (env : Env) (M : Module) :
    (lAddPersistentToLLVMUsed env M).funcs = M.funcs := by
  simp only [lAddPersistentToLLVMUsed]
  split <;> rfl

lemma anchor_gvars (env : Env) (M : Module) :
    (lAddPersistentToLLVMUsed env M).gvars = M.gvars := by
  simp only [lAddPersistentToLLVMUsed]
  split <;> rfl

lemma anchor_of_empty {env : Env} {M : Module}
    (h : (lAnchorConstPtrs env M).isEmpty = true) :
    lAddPersistentToLLVMUsed env M = M := by
  simp only [lAddPersistentToLLVMUsed, h, if_true]

lemma anchor_of_nonempty {env : Env} {M : Module}
    (h : (lAnchorConstPtrs env M).isEmpty = false) :
    lAddPersistentToLLVMUsed env M = lCreateLLVMUsed M (lAnchorConstPtrs env M) := by
  simp only [lAddPersistentToLLVMUsed, h, Bool.false_eq_true, if_false]

lemma anchorPtrs_entry {env : Env} {M : Module} {e : Entry}
    (h : e ∈ lAnchorConstPtrs env M) :
    ∃ n, e = Entry.fnRef n ∧ hasFunc M n = true := by
  rw [lAnchorConstPtrs] at h
  rcases List.mem_append.mp h with h | h
  · obtain ⟨gp, _, he⟩ := List.mem_flatMap.mp h
    by_cases hu : lGroupIsUsed M gp.2 = true
    · rw [if_pos hu] at he
      obtain ⟨n, _, he', hf⟩ := funcPtr_filterMap_mem he
      exact ⟨n, he', hf⟩
    · rw [if_neg hu] at he
      cases he
  · obtain ⟨n, _, he', hf⟩ := funcPtr_filterMap_mem h
    exact ⟨n, he', hf⟩

lemma mem_anchorPtrs_group {env : Env} {M : Module} {gp : String × List String}
    {n : String}
    (hgrp : gp ∈ env.persistentGroups)
    (hused : lGroupIsUsed M gp.2 = true)
    (hn : n ∈ gp.2) (hf : hasFunc M n = true) :
    Entry.fnRef n ∈ lAnchorConstPtrs env M := by
  rw [lAnchorConstPtrs]
  apply List.mem_append_left
  rw [List.mem_flatMap]
  refine ⟨gp, hgrp, ?_⟩
  rw [if_pos hused]
  exact funcPtr_filterMap_mem_of hn hf

lemma mem_anchorPtrs_pfunc {env : Env} {M : Module} {n : String}
    (hn : n ∈ env.persistentFuncs) (hf : hasFunc M n = true) :
    Entry.fnRef n ∈ lAnchorConstPtrs env M := by
  rw [lAnchorConstPtrs]
  exact List.mem_append_right _ (funcPtr_filterMap_mem_of hn hf)

lemma collect_entry {env : Env} {M : Module} {used : List String} {e : Entry}
    (h : e ∈ lCollectPreservedFunctions env M used) :
    ∃ n, e = Entry.fnRef n ∧ hasFunc M n = true := by
  rw [lCollectPreservedFunctions] at h
  rcases List.mem_append.mp h with h | h
  · obtain ⟨gp, _, he⟩ := List.mem_flatMap.mp h
    by_cases hu : gp.2.any (fun name => hasFunc M name && used.contains name) = true
    · rw [if_pos hu] at he
      obtain ⟨n, _, he', hf⟩ := funcPtr_filterMap_mem he
      exact ⟨n, he', hf⟩
    · rw [if_neg hu] at he
      cases he
  · obtain ⟨n, _, he', hf⟩ := funcPtr_filterMap_mem h
    exact ⟨n, he', hf⟩

lemma mem_collect_group {env : Env} {M : Module} {used : List String}
    {gp : String × List String} {n : String}
    (hgrp : gp ∈ env.persistentGroups)
    (hx : gp.2.any (fun name => hasFunc M name && used.contains name) = true)
    (hn : n ∈ gp.2) (hf : hasFunc M n = true) :
    Entry.fnRef n ∈ lCollectPreservedFunctions env M used := by
  rw [lCollectPreservedFunctions]
  apply List.mem_append_left
  rw [List.mem_flatMap]
  refine ⟨gp, hgrp, ?_⟩
  rw [if_pos hx]
  exact funcPtr_filterMap_mem_of hn hf

lemma mem_collect_pfunc {env : Env} {M : Module} {used : List String} {n : String}
    (hn : n ∈ env.persistentFuncs) (hf : hasFunc M n = true) :
    Entry.fnRef n ∈ lCollectPreservedFunctions env M used := by
  rw [lCollectPreservedFunctions]
  exact List.mem_append_right _ (funcPtr_filterMap_mem_of hn hf)

lemma extract_ok_of_no_bad {M : Module} {entries : List Entry}
    (h : ∀ u, Entry.other u ∈ entries → u ≤ 1) :
    lExtractUsedFunctions M entries
      = Except.ok (entries.filterMap (fun e =>
          match e with
          | Entry.fnRef n => if 1 < numUses M n then some n else none
          | Entry.other _ => none)) := by
  induction entries with
  | nil => rfl
  | cons e rest ih =>
    have hrest : ∀ u, Entry.other u ∈ rest → u ≤ 1 :=
      fun u hu => h u (List.mem_cons_of_mem _ hu)
    cases e with
    | fnRef n =>
      by_cases hu : 1 < entryNumUses M (Entry.fnRef n)
      · simp only [lExtractUsedFunctions, hu, if_true, ih hrest, Except.map,
          List.filterMap_cons]
        simp only [entryNumUses] at hu
        simp [hu]
      · simp only [lExtractUsedFunctions, hu, if_false, ih hrest, List.filterMap_cons]
        simp only [entryNumUses] at hu
        simp [hu]
    | other u =>
      have hle : ¬ 1 < entryNumUses M (Entry.other u) := by
        simp only [entryNumUses]
        have := h u (List.mem_cons_self _ _)
        omega
      simp only [lExtractUsedFunctions, hle, if_false, ih hrest, List.filterMap_cons]

lemma extract_error_iff {M : Module} {entries : List Entry} :
    lExtractUsedFunctions M entries = Except.error CompErr.assertFailed
      ↔ ∃ u, Entry.other u ∈ entries ∧ 1 < u := by
  induction entries with
  | nil => simp [lExtractUsedFunctions]
  | cons e rest ih =>
    cases e with
    | fnRef n =>
      by_cases hu : 1 < entryNumUses M (Entry.fnRef n)
      · simp only [lExtractUsedFunctions, hu, if_true]
        constructor
        · intro h
          cases hrec : lExtractUsedFunctions M rest with
          | ok l => rw [hrec] at h; simp [Except.map] at h
          | error e =>
            rw [hrec] at h
            simp only [Except.map] at h
            cases h
            obtain ⟨u, hu1, hu2⟩ := ih.mp hrec
            exact ⟨u, List.mem_cons_of_mem _ hu1, hu2⟩
        · rintro ⟨u, hu1, hu2⟩
          rcases List.mem_cons.mp hu1 with h | h
          · cases h
          · rw [ih.mpr ⟨u, h, hu2⟩]
            rfl
      · simp only [lExtractUsedFunctions, hu, if_false, ih]
        constructor
        · rintro ⟨u, hu1, hu2⟩
          exact ⟨u, List.mem_cons_of_mem _ hu1, hu2⟩
        · rintro ⟨u, hu1, hu2⟩
          rcases List.mem_cons.mp hu1 with h | h
          · cases h
          · exact ⟨u, h, hu2⟩
    | other u =>
      by_cases hu : 1 < entryNumUses M (Entry.other u)
      · simp only [lExtractUsedFunctions, hu, if_true]
        simp only [entryNumUses] at hu
        constructor
        · intro _
          exact ⟨u, List.mem_cons_self _ _, hu⟩
        · intro _
          trivial
      · simp only [lExtractUsedFunctions, hu, if_false, ih]
        simp only [entryNumUses] at hu
        constructor
        · rintro ⟨v, hv1, hv2⟩
          exact ⟨v, List.mem_cons_of_mem _ hv1, hv2⟩
        · rintro ⟨v, hv1, hv2⟩
          rcases List.mem_cons.mp hv1 with h | h
          · cases h
            omega
          · exact ⟨v, h, hv2⟩

lemma extract_error_is_assert {M : Module} {entries : List Entry} {e : CompErr}
    (h : lExtractUsedFunctions M entries = Except.error e) : e = CompErr.assertFailed := by
  induction entries with
  | nil => simp [lExtractUsedFunctions] at h
  | cons a rest ih =>
    cases a with
    | fnRef m =>
      by_cases hu : 1 < entryNumUses M (Entry.fnRef m)
      · simp only [lExtractUsedFunctions, hu, if_true] at h
        cases hrec : lExtractUsedFunctions M rest with
        | ok l => rw [hrec] at h; simp [Except.map] at h
        | error e' =>
          rw [hrec] at h
          simp only [Except.map] at h
          cases h
          exact ih hrec
      · simp only [lExtractUsedFunctions, hu, if_false] at h
        exact ih h
    | other u =>
      by_cases hu : 1 < entryNumUses M (Entry.other u)
      · simp only [lExtractUsedFunctions, hu, if_true] at h
        cases h
        rfl
      · simp only [lExtractUsedFunctions, hu, if_false] at h
        exact ih h

lemma marker_root {M : Module} {mk : Marker} {n : String}
    (hmk : mk ∈ M.markers) (he : Entry.fnRef n ∈ mk.entries) : n ∈ M.roots :=
  mem_roots.mpr (Or.inr ⟨mk, hmk, he⟩)

lemma external_root {M : Module} {f : Func}
    (hf : f ∈ M.funcs) (hl : f.linkage ≠ Linkage.internal) : f.name ∈ M.roots :=
  mem_roots.mpr (Or.inl ⟨f, hf, hl, rfl⟩)

lemma hasFunc_prune_of_root {M : Module} {n : String}
    (hr : n ∈ M.roots) (hf : hasFunc M n = true) :
    hasFunc (lRemoveUnused M) n = true := by
  obtain ⟨f, hfm, hfn⟩ := hasFunc_iff.mp hf
  refine hasFunc_iff.mpr ⟨f, mem_prune_funcs.mpr ⟨hfm, ?_⟩, hfn⟩
  rw [hfn]
  exact roots_subset_reachList M hr

lemma mem_prune_of_root {M : Module} {f : Func}
    (hf : f ∈ M.funcs) (hr : f.name ∈ M.roots) : f ∈ (lRemoveUnused M).funcs :=
  mem_prune_funcs.mpr ⟨hf, roots_subset_reachList M hr⟩

lemma numUses_ge_two {M : Module} {mk : Marker} {f : Func} {n : String}
    (hmk : mk ∈ M.markers) (he : Entry.fnRef n ∈ mk.entries)
    (hf : f ∈ M.funcs) (hc : n ∈ f.calls) : 2 ≤ numUses M n := by
  have h1 : mk.fnCount n ∈ M.markers.map (fun mk => mk.fnCount n) :=
    List.mem_map.mpr ⟨mk, hmk, rfl⟩
  have h2 : f.calls.count n ∈ M.funcs.map (fun f => f.calls.count n) :=
    List.mem_map.mpr ⟨f, hf, rfl⟩
  have h3 := le_sum_nat h1
  have h4 := le_sum_nat h2
  have h5 := fnCount_pos he
  have h6 : 0 < f.calls.count n := List.count_pos_iff.mpr hc
  simp only [numUses]
  omega

lemma update_funcs (M : Module) (es : List Entry) :
    (lUpdateLLVMUsed M es).funcs = M.funcs := rfl

lemma freshMarkerName_nil : freshMarkerName [] = llvmCompilerUsedName := by decide

lemma update_markers_singleton {M : Module} {mk : Marker}
    (hm : M.markers = [mk]) (hname : mk.name = llvmCompilerUsedName) (es : List Entry) :
    (lUpdateLLVMUsed M es).markers = [{ name := llvmCompilerUsedName, entries := es }] := by
  have herase : M.markers.eraseP (fun mk => mk.name == llvmCompilerUsedName) = [] := by
    rw [hm]
    simp [List.eraseP, hname]
  simp [lUpdateLLVMUsed, lCreateLLVMUsed, herase, freshMarkerName_nil]

lemma find_canonical_singleton {M : Module} {es : List Entry}
    (hm : M.markers = [{ name := llvmCompilerUsedName, entries := es }]) :
    M.findLLVMUsed = some { name := llvmCompilerUsedName, entries := es } := by
  rw [Module.findLLVMUsed, hm]
  simp

lemma reclosure_of_find (env : Env) {M : Module} {mk : Marker} {used : List String}
    (hfind : M.findLLVMUsed = some mk)
    (hext : lExtractUsedFunctions M mk.entries = Except.ok used) :
    lRemoveUnusedPersistentFunctions env M
      = Except.ok (lRemoveUnused (lUpdateLLVMUsed M (lCollectPreservedFunctions env M used))) := by
  rw [lRemoveUnusedPersistentFunctions, hfind]
  show (lExtractUsedFunctions M mk.entries >>= fun usedFunctions =>
      Except.ok (lRemoveUnused (lUpdateLLVMUsed M (lCollectPreservedFunctions env M usedFunctions))))
    = _
  rw [hext]
  rfl

lemma reclosure_of_none {env : Env} {M : Module}
    (hfind : M.findLLVMUsed = none) :
    lRemoveUnusedPersistentFunctions env M = Except.ok M := by
  rw [lRemoveUnusedPersistentFunctions, hfind]

lemma reclosure_funcs_subset {env : Env} {M M' : Module}
    (h : lRemoveUnusedPersistentFunctions env M = Except.ok M') :
    ∀ f ∈ M'.funcs, f ∈ M.funcs := by
  rw [lRemoveUnusedPersistentFunctions] at h
  cases hfind : M.findLLVMUsed with
  | none =>
    rw [hfind] at h
    have h' : Except.ok M = Except.ok M' := h
    cases h'
    exact fun f hf => hf
  | some mk =>
    rw [hfind] at h
    obtain ⟨used, hext, hok⟩ := except_bind_ok h
    cases hok
    intro f hf
    have hmem := mem_prune_funcs.mp hf
    rw [update_funcs] at hmem
    exact hmem.1

/-! Claim C2: the intrinsic signature checker. -/

lemma checkFuncs_ok_iff {idOf : String → Nat} {typeOf : Nat → Ty} {l : List Func} :
    lCheckIntrinsicsFuncs idOf typeOf l = Except.ok () ↔
      ∀ f ∈ l, f.isIntrinsicF = true → strStartsWith f.name "llvm.x86." = true →
        idOf f.name ≠ 0 ∧ f.ty = Ty.ptr (typeOf (idOf f.name)) := by
  induction l with
  | nil => simp [lCheckIntrinsicsFuncs]
  | cons f rest ih =>
    simp only [lCheckIntrinsicsFuncs]
    by_cases h1 : f.isIntrinsicF = true
    · by_cases h2 : strStartsWith f.name "llvm.x86." = true
      · by_cases h3 : idOf f.name = 0
        · simp [h1, h2, h3]
        · by_cases h4 : f.ty = Ty.ptr (typeOf (idOf f.name))
          · simp [h1, h2, h3, h4, ih]
          · simp [h1, h2, h3, h4]
      · simp [h1, h2, ih]
    · simp [h1, ih]

/-- C2: for every function in the assembled module that is an intrinsic
(name beginning with "llvm.") in the checked llvm.x86 namespace, the
checker passes exactly when the backend resolves a nonzero intrinsic
identifier for its name and the function's type equals the canonical
pointer-to-function type for that identifier; an unresolvable identifier
or a type mismatch is a fatal error, and intrinsics outside the llvm.x86
namespace are never checked (they cannot cause a failure). -/
theorem c2_intrinsic_check (idOf : String → Nat) (typeOf : Nat → Ty) (M : Module) :
    lCheckModuleIntrinsics idOf typeOf M = Except.ok () ↔
      ∀ f ∈ M.funcs, f.isIntrinsicF = true → strStartsWith f.name "llvm.x86." = true →
        idOf f.name ≠ 0 ∧ f.ty = Ty.ptr (typeOf (idOf f.name)) :=
  checkFuncs_ok_iff

/-! Claim C7: lSetAsInternal. -/

/-- C7: SetInternal demotes exactly the named defined functions: the
function list is rewritten pointwise — a function with a body whose name
is in the set gets internal linkage, every declaration and every function
whose name is not in the set is left unchanged — and nothing else in the
module is touched. -/
theorem c7_set_internal (M : Module) (names : List String) :
    List.Forall₂ (fun f g =>
        (f.isDecl = false ∧ f.name ∈ names → g = { f with linkage := Linkage.internal })
          ∧ ((f.isDecl = true ∨ f.name ∉ names) → g = f))
      M.funcs (lSetAsInternal M names).funcs
    ∧ (lSetAsInternal M names).gvars = M.gvars
    ∧ (lSetAsInternal M names).markers = M.markers := by
  refine ⟨?_, rfl, rfl⟩
  simp only [lSetAsInternal]
  rw [List.forall₂_map_right_iff]
  rw [List.forall₂_same]
  intro f hf
  constructor
  · rintro ⟨hd, hn⟩
    simp [hd, hn]
  · rintro (hd | hn)
    · simp [hd]
    · have hc : names.contains f.name = false := by simp [hn]
      simp only [hc, Bool.and_false, Bool.false_eq_true, if_false]

/-! Claim C1: persistent-group atomicity. -/

lemma hasFunc_funcs_eq {N M : Module} (h : N.funcs = M.funcs) (n : String) :
    hasFunc N n = hasFunc M n := by
  rw [hasFunc, hasFunc, h]

lemma anchor_markers_sub {env : Env} {M : Module} {mk : Marker}
    (h : mk ∈ (lAddPersistentToLLVMUsed env M).markers) :
    mk ∈ M.markers ∨ mk.entries = lAnchorConstPtrs env M := by
  by_cases he : (lAnchorConstPtrs env M).isEmpty = true
  · rw [anchor_of_empty he] at h
    exact Or.inl h
  · rw [anchor_of_nonempty (Bool.eq_false_iff.mpr he)] at h
    rw [lCreateLLVMUsed] at h
    rcases List.mem_append.mp h with h | h
    · exact Or.inl h
    · right
      cases List.mem_singleton.mp h
      rfl

/-- C1 counterexample: a persistent-group member that is present and used
(A has a use, from the internal function d) does not guarantee group
survival: the use comes from code that is itself pruned, so after the
protect-prune sequence both group members A (kept here only because it is
externally visible) and B are dropped from the preservation marker, and B
is eliminated — "every member of that group survives" fails. -/
theorem c1_counterexample :
    hasFunc modDeadCaller "A" = true
      ∧ hasFunc modDeadCaller "B" = true
      ∧ 0 < numUses modDeadCaller "A"
      ∧ (∃ f ∈ modDeadCaller.funcs, f.linkage ≠ Linkage.internal ∧ f.name = "A")
      ∧ protectPrune envGroupAB modDeadCaller
          = Except.ok { modDeadCaller with
              funcs := [mkDefined "A" Linkage.external []]
              markers := [{ name := llvmCompilerUsedName, entries := [] }] } := by
  refine ⟨rfl, rfl, by decide, by decide, ?_⟩
  rfl

/-- C1 amended: group preservation is all-or-nothing with respect to uses
that survive pruning.  If some member of a persistent group is present
and is called by a non-internal (externally visible) function — a use
that survives the first dead-code elimination — then, starting from a
module without a preservation marker, the whole protect-prune sequence
succeeds and every member of the group that is present in the module
survives it.  Conversely, if no member of the group is referenced
anywhere (zero uses), every function bearing a member's name is internal,
no member is a persistent function, and members belong to no other
persistent group, then no member survives the sequence. -/
theorem c1_group_atomicity (env : Env) (M : Module) (gname : String)
    (members : List String)
    (hgrp : (gname, members) ∈ env.persistentGroups) :
    (∀ m c, m ∈ members → hasFunc M m = true →
        c ∈ M.funcs → c.linkage ≠ Linkage.internal → m ∈ c.calls →
        M.markers = [] →
        ∃ M', protectPrune env M = Except.ok M'
          ∧ ∀ n ∈ members, hasFunc M n = true → hasFunc M' n = true)
      ∧ ((∀ n ∈ members, numUses M n = 0) →
        (∀ n ∈ members, ∀ f ∈ M.funcs, f.name = n → f.linkage = Linkage.internal) →
        (∀ n ∈ members, n ∉ env.persistentFuncs) →
        (∀ n ∈ members, ∀ gp ∈ env.persistentGroups, n ∈ gp.2 → gp.2 = members) →
        ∀ M', protectPrune env M = Except.ok M' →
          ∀ n ∈ members, hasFunc M' n = false) := by
  constructor
  · intro m c hm hmf hc hcl hcall hmk
    have hmu : 0 < numUses M m := numUses_ge_one_of_call hc hcall
    have hused : lGroupIsUsed M members = true := by
      rw [lGroupIsUsed, List.any_eq_true]
      exact ⟨m, hm, by simp [hmf, hmu]⟩
    have hmemb : ∀ n ∈ members, hasFunc M n = true → Entry.fnRef n ∈ lAnchorConstPtrs env M :=
      fun n hn hf => mem_anchorPtrs_group hgrp hused hn hf
    have hne : (lAnchorConstPtrs env M).isEmpty = false :=
      isEmpty_false_of_mem (hmemb m hm hmf)
    set A := lAddPersistentToLLVMUsed env M with hA
    have hancm : A.markers
        = [{ name := llvmCompilerUsedName, entries := lAnchorConstPtrs env M }] := by
      rw [hA, anchor_of_nonempty hne, lCreateLLVMUsed]
      simp [hmk, freshMarkerName_nil]
    have hancf : A.funcs = M.funcs := anchor_funcs env M
    set M2 := lRemoveUnused A with hM2
    have hm2m : M2.markers
        = [{ name := llvmCompilerUsedName, entries := lAnchorConstPtrs env M }] := by
      rw [hM2, prune_markers]
      exact hancm
    have hancmk : ({ name := llvmCompilerUsedName, entries := lAnchorConstPtrs env M } : Marker)
        ∈ A.markers := by
      rw [hancm]
      exact List.mem_singleton.mpr rfl
    have hsurv : ∀ n ∈ members, hasFunc M n = true → hasFunc M2 n = true := by
      intro n hn hf
      have hroot : n ∈ A.roots := marker_root hancmk (hmemb n hn hf)
      have hfA : hasFunc A n = true := by
        rw [hasFunc_funcs_eq hancf]
        exact hf
      exact hasFunc_prune_of_root hroot hfA
    have hcsurv : c ∈ M2.funcs := by
      have hcA : c ∈ A.funcs := by
        rw [hancf]
        exact hc
      exact mem_prune_of_root hcA (external_root hcA hcl)
    have hfind : M2.findLLVMUsed
        = some { name := llvmCompilerUsedName, entries := lAnchorConstPtrs env M } :=
      find_canonical_singleton hm2m
    have hnob : ∀ u, Entry.other u ∈ lAnchorConstPtrs env M → u ≤ 1 := by
      intro u hu
      obtain ⟨n, he, _⟩ := anchorPtrs_entry hu
      cases he
    have hext := extract_ok_of_no_bad (M := M2) hnob
    set used := (lAnchorConstPtrs env M).filterMap (fun e =>
      match e with
      | Entry.fnRef n => if 1 < numUses M2 n then some n else none
      | Entry.other _ => none) with huseddef
    have hrec := reclosure_of_find env hfind hext
    have hm2mk : ({ name := llvmCompilerUsedName, entries := lAnchorConstPtrs env M } : Marker)
        ∈ M2.markers := by
      rw [hm2m]
      exact List.mem_singleton.mpr rfl
    have hmuse2 : 1 < numUses M2 m :=
      numUses_ge_two hm2mk (hmemb m hm hmf) hcsurv hcall
    have hmused : m ∈ used := by
      rw [huseddef, List.mem_filterMap]
      exact ⟨Entry.fnRef m, hmemb m hm hmf, by simp [hmuse2]⟩
    have hany : members.any (fun name => hasFunc M2 name && used.contains name) = true := by
      rw [List.any_eq_true]
      refine ⟨m, hm, ?_⟩
      simp [hsurv m hm hmf, hmused]
    have hcoll : ∀ n ∈ members, hasFunc M n = true →
        Entry.fnRef n ∈ lCollectPreservedFunctions env M2 used :=
      fun n hn hf => mem_collect_group hgrp hany hn (hsurv n hn hf)
    refine ⟨lRemoveUnused (lUpdateLLVMUsed M2 (lCollectPreservedFunctions env M2 used)), hrec, ?_⟩
    intro n hn hf
    have hm3m : (lUpdateLLVMUsed M2 (lCollectPreservedFunctions env M2 used)).markers
        = [{ name := llvmCompilerUsedName, entries := lCollectPreservedFunctions env M2 used }] :=
      update_markers_singleton hm2m rfl _
    have hm3mk : Marker.mk llvmCompilerUsedName (lCollectPreservedFunctions env M2 used)
        ∈ (lUpdateLLVMUsed M2 (lCollectPreservedFunctions env M2 used)).markers := by
      rw [hm3m]
      exact List.mem_singleton.mpr rfl
    have hroot3 : n ∈ (lUpdateLLVMUsed M2 (lCollectPreservedFunctions env M2 used)).roots :=
      marker_root hm3mk (hcoll n hn hf)
    have hf3 : hasFunc (lUpdateLLVMUsed M2 (lCollectPreservedFunctions env M2 used)) n = true := by
      rw [hasFunc_funcs_eq (update_funcs M2 _)]
      exact hsurv n hn hf
    exact hasFunc_prune_of_root hroot3 hf3
  · intro h0 hint hpf honly M' hpp n hn
    have hnotanch : Entry.fnRef n ∉ lAnchorConstPtrs env M := by
      intro hmem
      rw [lAnchorConstPtrs] at hmem
      rcases List.mem_append.mp hmem with hmem | hmem
      · obtain ⟨gp, hgp, he⟩ := List.mem_flatMap.mp hmem
        by_cases hu : lGroupIsUsed M gp.2 = true
        · rw [if_pos hu] at he
          obtain ⟨k, hk, hek, _⟩ := funcPtr_filterMap_mem he
          cases hek
          have hgm : gp.2 = members := honly n hn gp hgp hk
          rw [hgm, lGroupIsUsed, List.any_eq_true] at hu
          obtain ⟨x, hx, hxc⟩ := hu
          simp only [Bool.and_eq_true, decide_eq_true_eq] at hxc
          have := h0 x hx
          omega
        · rw [if_neg hu] at he
          cases he
      · obtain ⟨k, hk, hek, _⟩ := funcPtr_filterMap_mem hmem
        cases hek
        exact hpf n hn hk
    have hanchf := anchor_funcs env M
    have hnroot : n ∉ (lAddPersistentToLLVMUsed env M).roots := by
      intro hr
      rcases mem_roots.mp hr with ⟨f, hf, hl, hfn⟩ | ⟨mk, hmk, he⟩
      · rw [hanchf] at hf
        exact hl (hint n hn f hf hfn)
      · rcases anchor_markers_sub hmk with hmk' | hmk'
        · exact numUses_zero_no_marker (h0 n hn) mk hmk' he
        · rw [hmk'] at he
          exact hnotanch he
    have hnreach : n ∉ reachList (lAddPersistentToLLVMUsed env M) :=
      not_reachList_of_unreferenced hnroot
        (fun f hf hx => numUses_zero_no_call (h0 n hn) f (hanchf ▸ hf) hx)
    have hM2false : ∀ f ∈ (lRemoveUnused (lAddPersistentToLLVMUsed env M)).funcs,
        f.name ≠ n := by
      intro f hf hfn
      have := mem_prune_funcs.mp hf
      exact hnreach (hfn ▸ this.2)
    have hsub := reclosure_funcs_subset
      (show lRemoveUnusedPersistentFunctions env
          (lRemoveUnused (lAddPersistentToLLVMUsed env M)) = Except.ok M' from hpp)
    rw [Bool.eq_false_iff]
    intro htrue
    obtain ⟨f, hf, hfn⟩ := hasFunc_iff.mp htrue
    exact hM2false f (hsub f hf) hfn

/-- C1 witness: the amended theorem applied to the group {A, B} in a
module where main (externally visible) calls only A: the sequence
succeeds and both present members survive. -/
theorem c1_group_atomicity_witness :
    ∃ M', protectPrune envGroupAB modGoodCaller = Except.ok M'
      ∧ ∀ n ∈ ["A", "B"], hasFunc modGoodCaller n = true → hasFunc M' n = true :=
  (c1_group_atomicity envGroupAB modGoodCaller "g" ["A", "B"] (by decide)).1
    "A" (mkDefined "main" Linkage.external ["A"])
    (by decide) (by decide) (by decide) (by decide) (by decide) rfl

/-! Claim C6: running the protect-prune engine twice. -/

lemma prune_prune_funcs (M : Module) :
    (lRemoveUnused (lRemoveUnused M)).funcs = (lRemoveUnused M).funcs :=
  prune_of_closed (fun _ hf => prune_funcs_closed hf)

lemma hasFunc_prune_mono {M : Module} {n : String}
    (h : hasFunc (lRemoveUnused M) n = true) : hasFunc M n = true := by
  obtain ⟨f, hf, hfn⟩ := hasFunc_iff.mp h
  exact hasFunc_iff.mpr ⟨f, (mem_prune_funcs.mp hf).1, hfn⟩

lemma groupUsed_prune_mono {M : Module} {fs : List String}
    (h : lGroupIsUsed (lRemoveUnused M) fs = true) : lGroupIsUsed M fs = true := by
  rw [lGroupIsUsed, List.any_eq_true] at h ⊢
  obtain ⟨x, hx, hc⟩ := h
  simp only [Bool.and_eq_true, decide_eq_true_eq] at hc
  refine ⟨x, hx, ?_⟩
  have h1 := hasFunc_prune_mono hc.1
  have h2 := Nat.lt_of_lt_of_le hc.2 (numUses_prune_le M x)
  simp [h1, h2]

lemma anchorPtrs_entry_origin {env : Env} {M : Module} {e : Entry}
    (h : e ∈ lAnchorConstPtrs env M) :
    ∃ n, e = Entry.fnRef n ∧ hasFunc M n = true
      ∧ ((∃ gp ∈ env.persistentGroups, n ∈ gp.2 ∧ lGroupIsUsed M gp.2 = true)
          ∨ n ∈ env.persistentFuncs) := by
  rw [lAnchorConstPtrs] at h
  rcases List.mem_append.mp h with h | h
  · obtain ⟨gp, hgp, he⟩ := List.mem_flatMap.mp h
    by_cases hu : lGroupIsUsed M gp.2 = true
    · rw [if_pos hu] at he
      obtain ⟨n, hn, he', hf⟩ := funcPtr_filterMap_mem he
      exact ⟨n, he', hf, Or.inl ⟨gp, hgp, hn, hu⟩⟩
    · rw [if_neg hu] at he
      cases he
  · obtain ⟨n, hn, he', hf⟩ := funcPtr_filterMap_mem h
    exact ⟨n, he', hf, Or.inr hn⟩

lemma collect_entry_origin {env : Env} {M : Module} {used : List String} {e : Entry}
    (h : e ∈ lCollectPreservedFunctions env M used) :
    ∃ n, e = Entry.fnRef n ∧ hasFunc M n = true
      ∧ ((∃ gp ∈ env.persistentGroups, n ∈ gp.2) ∨ n ∈ env.persistentFuncs) := by
  rw [lCollectPreservedFunctions] at h
  rcases List.mem_append.mp h with h | h
  · obtain ⟨gp, hgp, he⟩ := List.mem_flatMap.mp h
    by_cases hu : gp.2.any (fun name => hasFunc M name && used.contains name) = true
    · rw [if_pos hu] at he
      obtain ⟨n, hn, he', hf⟩ := funcPtr_filterMap_mem he
      exact ⟨n, he', hf, Or.inl ⟨gp, hgp, hn⟩⟩
    · rw [if_neg hu] at he
      cases he
  · obtain ⟨n, hn, he', hf⟩ := funcPtr_filterMap_mem h
    exact ⟨n, he', hf, Or.inr hn⟩

lemma anchorPtrs_nil_prune {env : Env} {M : Module}
    (h : lAnchorConstPtrs env M = []) :
    lAnchorConstPtrs env (lRemoveUnused M) = [] := by
  rw [List.eq_nil_iff_forall_not_mem]
  intro e he
  obtain ⟨n, rfl, hf, horigin⟩ := anchorPtrs_entry_origin he
  rcases horigin with ⟨gp, hgp, hn, hu⟩ | hpf
  · have h1 := mem_anchorPtrs_group hgp (groupUsed_prune_mono hu) hn (hasFunc_prune_mono hf)
    rw [h] at h1
    cases h1
  · have h1 := mem_anchorPtrs_pfunc hpf (hasFunc_prune_mono hf)
    rw [h] at h1
    cases h1

lemma anchor_markers_extend (env : Env) (M : Module) :
    M.markers.IsPrefix (lAddPersistentToLLVMUsed env M).markers := by
  by_cases he : (lAnchorConstPtrs env M).isEmpty = true
  · rw [anchor_of_empty he]
  · rw [anchor_of_nonempty (Bool.eq_false_iff.mpr he), lCreateLLVMUsed]
    exact ⟨_, rfl⟩

lemma anchor_roots_sup {env : Env} {M : Module} {y : String} (h : y ∈ M.roots) :
    y ∈ (lAddPersistentToLLVMUsed env M).roots := by
  rcases mem_roots.mp h with ⟨f, hf, hl, hfn⟩ | ⟨mk, hmk, he⟩
  · refine mem_roots.mpr (Or.inl ⟨f, ?_, hl, hfn⟩)
    rw [anchor_funcs]
    exact hf
  · refine mem_roots.mpr (Or.inr ⟨mk, ?_, he⟩)
    exact (anchor_markers_extend env M).subset hmk

lemma markerNameTaken_false {ms : List Marker}
    (h : ∀ m ∈ ms, m.name ≠ llvmCompilerUsedName) :
    markerNameTaken ms llvmCompilerUsedName = false := by
  rw [Bool.eq_false_iff]
  intro ht
  rw [markerNameTaken, List.any_eq_true] at ht
  obtain ⟨m, hm, hmb⟩ := ht
  exact h m hm (by simpa using hmb)

lemma freshMarkerName_of_free {ms : List Marker}
    (h : markerNameTaken ms llvmCompilerUsedName = false) :
    freshMarkerName ms = llvmCompilerUsedName := by
  have h0 : dotName 0 = llvmCompilerUsedName := by decide
  have hfind : (List.range (ms.length + 1)).find?
      (fun j => !(markerNameTaken ms (dotName j))) = some 0 := by
    rw [List.range_succ_eq_map]
    exact List.find?_cons_of_pos _ (by rw [h0, h]; rfl)
  rw [freshMarkerName, hfind]
  exact h0

lemma freshMarkerName_ne_of_taken {ms : List Marker}
    (h : markerNameTaken ms llvmCompilerUsedName = true) :
    freshMarkerName ms ≠ llvmCompilerUsedName := by
  cases hfind : (List.range (ms.length + 1)).find?
      (fun j => !(markerNameTaken ms (dotName j))) with
  | none =>
    have hval : freshMarkerName ms = String.mk [] := by
      rw [freshMarkerName, hfind]
    rw [hval]
    decide
  | some j =>
    have hval : freshMarkerName ms = dotName j := by
      rw [freshMarkerName, hfind]
    rw [hval]
    intro heq
    have hp := List.find?_some hfind
    rw [heq, h] at hp
    cases hp

lemma eraseP_no_canonical {l : List Marker} (hnd : (l.map Marker.name).Nodup) :
    ∀ m ∈ l.eraseP (fun mk => mk.name == llvmCompilerUsedName),
      m.name ≠ llvmCompilerUsedName := by
  induction l with
  | nil => simp
  | cons a t ih =>
    rw [List.map_cons, List.nodup_cons] at hnd
    by_cases hp : (a.name == llvmCompilerUsedName) = true
    · have herase : (a :: t).eraseP (fun mk => mk.name == llvmCompilerUsedName) = t :=
        List.eraseP_cons_of_pos hp
      rw [herase]
      intro m hm hmn
      apply hnd.1
      rw [List.mem_map]
      refine ⟨m, hm, ?_⟩
      rw [hmn]
      exact (beq_iff_eq.mp hp).symm
    · have herase : (a :: t).eraseP (fun mk => mk.name == llvmCompilerUsedName)
          = a :: t.eraseP (fun mk => mk.name == llvmCompilerUsedName) :=
        List.eraseP_cons_of_neg hp
      rw [herase]
      intro m hm
      rcases List.mem_cons.mp hm with rfl | hm'
      · intro hmn
        exact hp (beq_iff_eq.mpr hmn)
      · exact ih hnd.2 m hm'

lemma anchor_eraseP_no_canonical (env : Env) {M : Module}
    (hwf : (M.markers.map Marker.name).Nodup) :
    ∀ m ∈ (lAddPersistentToLLVMUsed env M).markers.eraseP
        (fun mk => mk.name == llvmCompilerUsedName),
      m.name ≠ llvmCompilerUsedName := by
  by_cases he : (lAnchorConstPtrs env M).isEmpty = true
  · rw [anchor_of_empty he]
    exact eraseP_no_canonical hwf
  · rw [anchor_of_nonempty (Bool.eq_false_iff.mpr he), lCreateLLVMUsed]
    show ∀ m ∈ (M.markers
        ++ [Marker.mk (freshMarkerName M.markers) (lAnchorConstPtrs env M)]).eraseP
          (fun mk => mk.name == llvmCompilerUsedName),
      m.name ≠ llvmCompilerUsedName
    by_cases htaken : markerNameTaken M.markers llvmCompilerUsedName = true
    · obtain ⟨a, ha, hap⟩ := List.any_eq_true.mp htaken
      have herase : (M.markers
          ++ [Marker.mk (freshMarkerName M.markers) (lAnchorConstPtrs env M)]).eraseP
            (fun mk => mk.name == llvmCompilerUsedName)
          = M.markers.eraseP (fun mk => mk.name == llvmCompilerUsedName)
            ++ [Marker.mk (freshMarkerName M.markers) (lAnchorConstPtrs env M)] :=
        List.eraseP_append_left (p := fun mk => mk.name == llvmCompilerUsedName) hap _ ha
      rw [herase]
      intro m hm
      rcases List.mem_append.mp hm with hm | hm
      · exact eraseP_no_canonical hwf m hm
      · cases List.mem_singleton.mp hm
        exact freshMarkerName_ne_of_taken htaken
    · have hfree : markerNameTaken M.markers llvmCompilerUsedName = false :=
        Bool.eq_false_iff.mpr htaken
      have hnoM : ∀ b ∈ M.markers, ¬(b.name == llvmCompilerUsedName) = true := by
        intro b hb hbp
        apply htaken
        rw [markerNameTaken, List.any_eq_true]
        exact ⟨b, hb, hbp⟩
      have hfr := freshMarkerName_of_free hfree
      have hpos : ((Marker.mk (freshMarkerName M.markers)
          (lAnchorConstPtrs env M)).name == llvmCompilerUsedName) = true := by
        simp [hfr]
      have herase : (M.markers
          ++ [Marker.mk (freshMarkerName M.markers) (lAnchorConstPtrs env M)]).eraseP
            (fun mk => mk.name == llvmCompilerUsedName)
          = M.markers
            ++ [Marker.mk (freshMarkerName M.markers) (lAnchorConstPtrs env M)].eraseP
              (fun mk => mk.name == llvmCompilerUsedName) :=
        List.eraseP_append_right _ hnoM
      have herase2 : ([Marker.mk (freshMarkerName M.markers) (lAnchorConstPtrs env M)]).eraseP
            (fun mk => mk.name == llvmCompilerUsedName) = ([] : List Marker) :=
        List.eraseP_cons_of_pos hpos
      rw [herase, herase2]
      intro m hm
      rw [List.append_nil] at hm
      intro hmn
      exact hnoM m hm (by simp [hmn])

lemma update_markers (M : Module) (es : List Entry) :
    (lUpdateLLVMUsed M es).markers
      = M.markers.eraseP (fun mk => mk.name == llvmCompilerUsedName)
        ++ [Marker.mk
            (freshMarkerName (M.markers.eraseP (fun mk => mk.name == llvmCompilerUsedName)))
            es] := rfl

lemma numUses_ge_two_markers {M : Module} {pre : List Marker} {mk1 mk2 : Marker} {n : String}
    (hm : M.markers = pre ++ [mk2]) (h1 : mk1 ∈ pre)
    (he1 : Entry.fnRef n ∈ mk1.entries) (he2 : Entry.fnRef n ∈ mk2.entries) :
    2 ≤ numUses M n := by
  have hc1 : mk1.fnCount n ∈ pre.map (fun mk => mk.fnCount n) :=
    List.mem_map.mpr ⟨mk1, h1, rfl⟩
  have hs1 := le_sum_nat hc1
  have hp1 := fnCount_pos he1
  have hp2 := fnCount_pos he2
  rw [numUses, hm, List.map_append, List.sum_append]
  simp only [List.map_cons, List.map_nil, List.sum_cons, List.sum_nil]
  omega

lemma pp_shape {env : Env} {M M1 : Module}
    (hwf : (M.markers.map Marker.name).Nodup)
    (h1 : protectPrune env M = Except.ok M1) :
    ((∃ rest es, M1.markers = rest ++ [Marker.mk llvmCompilerUsedName es]
        ∧ (∀ m ∈ rest, m.name ≠ llvmCompilerUsedName)
        ∧ (∀ e ∈ es, ∃ n, e = Entry.fnRef n ∧ hasFunc M1 n = true
            ∧ ((∃ gp ∈ env.persistentGroups, n ∈ gp.2) ∨ n ∈ env.persistentFuncs)))
      ∨ (lAnchorConstPtrs env M1 = []
          ∧ ∀ m ∈ M1.markers, m.name ≠ llvmCompilerUsedName))
      ∧ ∀ f ∈ M1.funcs, f.name ∈ reachList M1 := by
  rw [protectPrune] at h1
  cases hfind : (lRemoveUnused (lAddPersistentToLLVMUsed env M)).findLLVMUsed with
  | none =>
    rw [reclosure_of_none hfind] at h1
    injection h1 with h1
    subst h1
    have hnone := List.find?_eq_none.mp hfind
    have hptrsM : lAnchorConstPtrs env M = [] := by
      cases hl : lAnchorConstPtrs env M with
      | nil => rfl
      | cons a t =>
        exfalso
        have hne' : (lAnchorConstPtrs env M).isEmpty = false := by
          rw [hl]
          rfl
        have hmarkers := anchor_of_nonempty hne'
        by_cases htaken : markerNameTaken M.markers llvmCompilerUsedName = true
        · obtain ⟨m, hm, hmn⟩ := List.any_eq_true.mp htaken
          refine hnone m ?_ hmn
          rw [prune_markers, hmarkers, lCreateLLVMUsed]
          exact List.mem_append_left _ hm
        · have hfr := freshMarkerName_of_free (Bool.eq_false_iff.mpr htaken)
          refine hnone (Marker.mk (freshMarkerName M.markers) (lAnchorConstPtrs env M))
            ?_ (by simp [hfr])
          rw [prune_markers, hmarkers, lCreateLLVMUsed]
          exact List.mem_append_right _ (List.mem_singleton.mpr rfl)
    have hAM : lAddPersistentToLLVMUsed env M = M := by
      rw [lAddPersistentToLLVMUsed, hptrsM]
      rfl
    constructor
    · right
      constructor
      · rw [hAM]
        exact anchorPtrs_nil_prune hptrsM
      · intro m hm hmn
        exact hnone m hm (by simp [hmn])
    · intro f hf
      exact prune_funcs_closed hf
  | some mk =>
    rw [lRemoveUnusedPersistentFunctions, hfind] at h1
    obtain ⟨used1, hext1, hok⟩ := except_bind_ok h1
    injection hok with hok
    subst hok
    constructor
    · left
      refine ⟨(lRemoveUnused (lAddPersistentToLLVMUsed env M)).markers.eraseP
            (fun mk => mk.name == llvmCompilerUsedName),
          lCollectPreservedFunctions env (lRemoveUnused (lAddPersistentToLLVMUsed env M)) used1,
          ?_, ?_, ?_⟩
      · rw [prune_markers, update_markers]
        have hfr : freshMarkerName
            ((lRemoveUnused (lAddPersistentToLLVMUsed env M)).markers.eraseP
              (fun mk => mk.name == llvmCompilerUsedName)) = llvmCompilerUsedName := by
          apply freshMarkerName_of_free
          apply markerNameTaken_false
          exact fun m hm => anchor_eraseP_no_canonical env hwf m hm
        rw [hfr]
      · exact fun m hm => anchor_eraseP_no_canonical env hwf m hm
      · intro e he
        obtain ⟨n, rfl, hfb, horigin⟩ := collect_entry_origin he
        refine ⟨n, rfl, ?_, horigin⟩
        have hmem : Marker.mk
            (freshMarkerName
              ((lRemoveUnused (lAddPersistentToLLVMUsed env M)).markers.eraseP
                (fun mk => mk.name == llvmCompilerUsedName)))
            (lCollectPreservedFunctions env (lRemoveUnused (lAddPersistentToLLVMUsed env M)) used1)
            ∈ (lUpdateLLVMUsed (lRemoveUnused (lAddPersistentToLLVMUsed env M))
                (lCollectPreservedFunctions env
                  (lRemoveUnused (lAddPersistentToLLVMUsed env M)) used1)).markers := by
          rw [update_markers]
          exact List.mem_append_right _ (List.mem_singleton.mpr rfl)
        refine hasFunc_prune_of_root (marker_root hmem he) ?_
        rw [hasFunc_funcs_eq (update_funcs _ _)]
        exact hfb
    · intro f hf
      exact prune_funcs_closed hf

lemma pp_second_nomarker {env : Env} {M1 : Module}
    (hptrs : lAnchorConstPtrs env M1 = [])
    (hnomk : ∀ m ∈ M1.markers, m.name ≠ llvmCompilerUsedName)
    (hcl : ∀ f ∈ M1.funcs, f.name ∈ reachList M1) :
    ∃ M2, protectPrune env M1 = Except.ok M2 ∧ M2.funcs = M1.funcs := by
  have hanc : lAddPersistentToLLVMUsed env M1 = M1 := by
    rw [lAddPersistentToLLVMUsed, hptrs]
    rfl
  have hfind : (lRemoveUnused M1).findLLVMUsed = none := by
    rw [Module.findLLVMUsed, prune_markers, List.find?_eq_none]
    intro m hm hmb
    exact hnomk m hm (by simpa using hmb)
  refine ⟨lRemoveUnused M1, ?_, prune_of_closed hcl⟩
  rw [protectPrune, hanc]
  exact reclosure_of_none hfind

lemma pp_second_marker {env : Env} {M1 : Module} (rest : List Marker) (es : List Entry)
    (hmk : M1.markers = rest ++ [Marker.mk llvmCompilerUsedName es])
    (hrest : ∀ m ∈ rest, m.name ≠ llvmCompilerUsedName)
    (hes : ∀ e ∈ es, ∃ n, e = Entry.fnRef n ∧ hasFunc M1 n = true
        ∧ ((∃ gp ∈ env.persistentGroups, n ∈ gp.2) ∨ n ∈ env.persistentFuncs))
    (hcl : ∀ f ∈ M1.funcs, f.name ∈ reachList M1) :
    ∃ M2, protectPrune env M1 = Except.ok M2 ∧ M2.funcs = M1.funcs := by
  obtain ⟨tail, hAmk⟩ : ∃ tail, (lAddPersistentToLLVMUsed env M1).markers
      = M1.markers ++ tail := by
    by_cases he : (lAnchorConstPtrs env M1).isEmpty = true
    · exact ⟨[], by rw [anchor_of_empty he, List.append_nil]⟩
    · exact ⟨[Marker.mk (freshMarkerName M1.markers) (lAnchorConstPtrs env M1)],
        by rw [anchor_of_nonempty (Bool.eq_false_iff.mpr he)]; rfl⟩
  have hAclosed : ∀ f ∈ (lAddPersistentToLLVMUsed env M1).funcs,
      f.name ∈ reachList (lAddPersistentToLLVMUsed env M1) := by
    intro f hf
    rw [anchor_funcs] at hf
    exact reaches_iff_mem_reachList.mp
      (reachesFrom_mono (fun g hg => by rw [anchor_funcs]; exact hg)
        (fun y hy => anchor_roots_sup hy)
        (reaches_iff_mem_reachList.mpr (hcl f hf)))
  have hBfuncs : (lRemoveUnused (lAddPersistentToLLVMUsed env M1)).funcs = M1.funcs := by
    rw [prune_of_closed hAclosed, anchor_funcs]
  have hBmk : (lRemoveUnused (lAddPersistentToLLVMUsed env M1)).markers
      = rest ++ ([Marker.mk llvmCompilerUsedName es] ++ tail) := by
    rw [prune_markers, hAmk, hmk, List.append_assoc]
  have hfind : (lRemoveUnused (lAddPersistentToLLVMUsed env M1)).findLLVMUsed
      = some (Marker.mk llvmCompilerUsedName es) := by
    rw [Module.findLLVMUsed, hBmk, List.find?_append]
    have h1 : rest.find? (fun mk => mk.name == llvmCompilerUsedName) = none :=
      List.find?_eq_none.mpr (fun m hm hmb => hrest m hm (by simpa using hmb))
    have h2 : (Marker.mk llvmCompilerUsedName es :: tail).find?
        (fun mk => mk.name == llvmCompilerUsedName) = some (Marker.mk llvmCompilerUsedName es) :=
      List.find?_cons_of_pos _ (by simp)
    rw [h1, show ([Marker.mk llvmCompilerUsedName es] ++ tail)
      = Marker.mk llvmCompilerUsedName es :: tail from rfl, h2]
    rfl
  have hnob : ∀ u, Entry.other u ∈ es → u ≤ 1 := by
    intro u hu
    obtain ⟨n, heq, -, -⟩ := hes _ hu
    cases heq
  have hext := extract_ok_of_no_bad (M := lRemoveUnused (lAddPersistentToLLVMUsed env M1)) hnob
  have hrec := reclosure_of_find env hfind hext
  have hkey : ∀ n, Entry.fnRef n ∈ es →
      Entry.fnRef n ∈ lCollectPreservedFunctions env
        (lRemoveUnused (lAddPersistentToLLVMUsed env M1))
        (es.filterMap (fun e =>
          match e with
          | Entry.fnRef n =>
            if 1 < numUses (lRemoveUnused (lAddPersistentToLLVMUsed env M1)) n then some n
            else none
          | Entry.other _ => none)) := by
    intro n hn
    obtain ⟨n', heq, hfn1, horigin⟩ := hes _ hn
    cases heq
    have hfnb : hasFunc (lRemoveUnused (lAddPersistentToLLVMUsed env M1)) n = true := by
      rw [hasFunc_funcs_eq hBfuncs]
      exact hfn1
    have hcanm : Marker.mk llvmCompilerUsedName es ∈ M1.markers := by
      rw [hmk]
      exact List.mem_append_right _ (List.mem_singleton.mpr rfl)
    rcases horigin with ⟨gp, hgp, hngp⟩ | hpf
    · have hone := numUses_ge_one_of_marker hcanm hn
      have hused1 : lGroupIsUsed M1 gp.2 = true := by
        rw [lGroupIsUsed, List.any_eq_true]
        refine ⟨n, hngp, ?_⟩
        rw [Bool.and_eq_true]
        refine ⟨hfn1, ?_⟩
        simp only [decide_eq_true_eq]
        omega
      have hptr : Entry.fnRef n ∈ lAnchorConstPtrs env M1 :=
        mem_anchorPtrs_group hgp hused1 hngp hfn1
      have hne : (lAnchorConstPtrs env M1).isEmpty = false := isEmpty_false_of_mem hptr
      have hAmk2 : (lAddPersistentToLLVMUsed env M1).markers
          = M1.markers ++ [Marker.mk (freshMarkerName M1.markers) (lAnchorConstPtrs env M1)] := by
        rw [anchor_of_nonempty hne]
        rfl
      have h2 : 2 ≤ numUses (lRemoveUnused (lAddPersistentToLLVMUsed env M1)) n := by
        have hmm : (lRemoveUnused (lAddPersistentToLLVMUsed env M1)).markers
            = M1.markers ++ [Marker.mk (freshMarkerName M1.markers) (lAnchorConstPtrs env M1)] := by
          rw [prune_markers]
          exact hAmk2
        exact numUses_ge_two_markers hmm hcanm hn hptr
      have hnused : n ∈ es.filterMap (fun e =>
          match e with
          | Entry.fnRef n =>
            if 1 < numUses (lRemoveUnused (lAddPersistentToLLVMUsed env M1)) n then some n
            else none
          | Entry.other _ => none) := by
        rw [List.mem_filterMap]
        refine ⟨Entry.fnRef n, hn, ?_⟩
        show (if 1 < numUses (lRemoveUnused (lAddPersistentToLLVMUsed env M1)) n then some n
          else none) = some n
        rw [if_pos (by omega)]
      have hany : gp.2.any (fun name =>
          hasFunc (lRemoveUnused (lAddPersistentToLLVMUsed env M1)) name
            && (es.filterMap (fun e =>
              match e with
              | Entry.fnRef n =>
                if 1 < numUses (lRemoveUnused (lAddPersistentToLLVMUsed env M1)) n then some n
                else none
              | Entry.other _ => none)).contains name) = true := by
        rw [List.any_eq_true]
        exact ⟨n, hngp, by simp [hfnb, hnused]⟩
      exact mem_collect_group hgp hany hngp hfnb
    · exact mem_collect_pfunc hpf hfnb
  have hroots2 : ∀ y ∈ M1.roots,
      y ∈ (lUpdateLLVMUsed (lRemoveUnused (lAddPersistentToLLVMUsed env M1))
        (lCollectPreservedFunctions env (lRemoveUnused (lAddPersistentToLLVMUsed env M1))
          (es.filterMap (fun e =>
            match e with
            | Entry.fnRef n =>
              if 1 < numUses (lRemoveUnused (lAddPersistentToLLVMUsed env M1)) n then some n
              else none
            | Entry.other _ => none)))).roots := by
    intro y hy
    rcases mem_roots.mp hy with ⟨f, hf, hl, hfn⟩ | ⟨m, hm, he⟩
    · refine mem_roots.mpr (Or.inl ⟨f, ?_, hl, hfn⟩)
      rw [update_funcs, hBfuncs]
      exact hf
    · rw [hmk] at hm
      rcases List.mem_append.mp hm with hm | hm
      · refine mem_roots.mpr (Or.inr ⟨m, ?_, he⟩)
        rw [update_markers]
        apply List.mem_append_left
        have hnop : ∀ b ∈ rest, ¬((fun mk => mk.name == llvmCompilerUsedName) b) = true :=
          fun b hb hbb => hrest b hb (by simpa using hbb)
        have herase : ((rest ++ ([Marker.mk llvmCompilerUsedName es] ++ tail)).eraseP
              (fun mk => mk.name == llvmCompilerUsedName))
            = rest ++ (([Marker.mk llvmCompilerUsedName es] ++ tail).eraseP
              (fun mk => mk.name == llvmCompilerUsedName)) :=
          List.eraseP_append_right _ hnop
        rw [hBmk, herase]
        exact List.mem_append_left _ hm
      · cases List.mem_singleton.mp hm
        have hco := hkey y he
        refine mem_roots.mpr (Or.inr ⟨Marker.mk
          (freshMarkerName
            ((lRemoveUnused (lAddPersistentToLLVMUsed env M1)).markers.eraseP
              (fun mk => mk.name == llvmCompilerUsedName)))
          (lCollectPreservedFunctions env (lRemoveUnused (lAddPersistentToLLVMUsed env M1))
            (es.filterMap (fun e =>
              match e with
              | Entry.fnRef n =>
                if 1 < numUses (lRemoveUnused (lAddPersistentToLLVMUsed env M1)) n then some n
                else none
              | Entry.other _ => none))), ?_, hco⟩)
        rw [update_markers]
        exact List.mem_append_right _ (List.mem_singleton.mpr rfl)
  have hclosed2 : ∀ f ∈ (lUpdateLLVMUsed (lRemoveUnused (lAddPersistentToLLVMUsed env M1))
      (lCollectPreservedFunctions env (lRemoveUnused (lAddPersistentToLLVMUsed env M1))
        (es.filterMap (fun e =>
          match e with
          | Entry.fnRef n =>
            if 1 < numUses (lRemoveUnused (lAddPersistentToLLVMUsed env M1)) n then some n
            else none
          | Entry.other _ => none)))).funcs,
      f.name ∈ reachList (lUpdateLLVMUsed (lRemoveUnused (lAddPersistentToLLVMUsed env M1))
        (lCollectPreservedFunctions env (lRemoveUnused (lAddPersistentToLLVMUsed env M1))
          (es.filterMap (fun e =>
            match e with
            | Entry.fnRef n =>
              if 1 < numUses (lRemoveUnused (lAddPersistentToLLVMUsed env M1)) n then some n
              else none
            | Entry.other _ => none)))) := by
    intro f hf
    rw [update_funcs, hBfuncs] at hf
    exact reaches_iff_mem_reachList.mp
      (reachesFrom_mono (fun g hg => by rw [update_funcs, hBfuncs]; exact hg) hroots2
        (reaches_iff_mem_reachList.mpr (hcl f hf)))
  refine ⟨_, hrec, ?_⟩
  rw [prune_of_closed hclosed2, update_funcs, hBfuncs]

/-- C6 counterexample: on the module holding only the internal persistent
function A, two protect-prune runs both succeed and the second removes no
function, but the resulting module is not equal to the first run's result:
the second run's anchor leaves an extra, uniquified preservation marker
behind, so "the module after the second run equals the module after the
first" is false. -/
theorem c6_counterexample :
    protectPrune envPersistA modPersistOnly = Except.ok ppOnce
      ∧ protectPrune envPersistA ppOnce = Except.ok ppTwice
      ∧ ppTwice ≠ ppOnce
      ∧ ppTwice.funcs = ppOnce.funcs := by
  refine ⟨rfl, rfl, by decide, rfl⟩

/-- C6 amended: protect-prune is idempotent at the level of functions:
for a module whose marker names are distinct (as LLVM's module symbol
table guarantees), if one protect-prune run succeeds then running the
engine a second time without intervening linking also succeeds and
removes no function — the surviving function list is exactly that of the
first run — although the module itself is not literally unchanged (the
second anchor leaves an additional uniquified marker global behind). -/
theorem c6_idempotent_protect_prune (env : Env) (M M1 : Module)
    (hwf : (M.markers.map Marker.name).Nodup)
    (h1 : protectPrune env M = Except.ok M1) :
    ∃ M2, protectPrune env M1 = Except.ok M2 ∧ M2.funcs = M1.funcs := by
  obtain ⟨hsh, hcl⟩ := pp_shape hwf h1
  rcases hsh with ⟨rest, es, hmk, hrest, hes⟩ | ⟨hptrs, hnomk⟩
  · exact pp_second_marker rest es hmk hrest hes hcl
  · exact pp_second_nomarker hptrs hnomk hcl

/-- C6 witness: the amended theorem applied to the one-persistent-function
module: the second run succeeds and keeps exactly the first run's
functions. -/
theorem c6_idempotent_protect_prune_witness :
    ∃ M2, protectPrune envPersistA ppOnce = Except.ok M2 ∧ M2.funcs = ppOnce.funcs :=
  c6_idempotent_protect_prune envPersistA modPersistOnly ppOnce (by decide) rfl

/-! Claim C3: which phase rebuilds the marker wholesale. -/

/-- C3 counterexample: the anchor phase does not erase an existing
preservation marker.  On a module that already holds a marker (and whose
persistent function A exists), the anchor step leaves the old marker in
place and adds a second, uniquified one, so the module then holds two
markers. -/
theorem c3_counterexample :
    modWithMarker.markers.length = 1
      ∧ (lAddPersistentToLLVMUsed envPersistA modWithMarker).markers.length = 2
      ∧ (lAddPersistentToLLVMUsed envPersistA modWithMarker).markers.head?
          = modWithMarker.markers.head? := by
  constructor
  · rfl
  constructor
  · rfl
  · rfl

/-- C3 amended: it is the re-closure step (lUpdateLLVMUsed), not the
anchor step, that always rebuilds the marker wholesale: when the module's
only marker is the llvm.compiler.used global, updating erases it first and
recreates a single marker holding exactly the new element list; the anchor
step (lAddPersistentToLLVMUsed) never erases anything — the existing
marker list is always a prefix of the anchor's output. -/
theorem c3_rebuild_wholesale (M : Module) (es : List Entry) (mk : Marker)
    (hm : M.markers = [mk]) (hname : mk.name = llvmCompilerUsedName) :
    (lUpdateLLVMUsed M es).markers = [{ name := llvmCompilerUsedName, entries := es }]
      ∧ ∀ (env : Env) (N : Module),
          N.markers.IsPrefix (lAddPersistentToLLVMUsed env N).markers := by
  constructor
  · exact update_markers_singleton hm hname es
  · intro env N
    simp only [lAddPersistentToLLVMUsed]
    by_cases h : (lAnchorConstPtrs env N).isEmpty
    · simp [h]
    · simp only [h, Bool.false_eq_true, if_false, lCreateLLVMUsed]
      exact ⟨_, rfl⟩

/-- C3 witness: the amended theorem applied to a concrete module whose
only marker is the canonical one. -/
theorem c3_rebuild_wholesale_witness :
    (lUpdateLLVMUsed modWithMarker [Entry.fnRef "A"]).markers
        = [{ name := llvmCompilerUsedName, entries := [Entry.fnRef "A"] }]
      ∧ ∀ (env : Env) (N : Module),
          N.markers.IsPrefix (lAddPersistentToLLVMUsed env N).markers :=
  c3_rebuild_wholesale modWithMarker [Entry.fnRef "A"]
    { name := "llvm.compiler.used", entries := [Entry.fnRef "A"] } rfl rfl

/-! Claim C8: marker operands that do not resolve to a function. -/

/-- C8 counterexample: a marker operand that does not resolve to a
function does not abort compilation when its use count does not exceed
one: on a module whose llvm.compiler.used marker holds a single
non-function operand with one use, the re-closure phase completes
normally (rebuilding an empty marker) instead of aborting. -/
theorem c8_counterexample :
    modBadOperand.findLLVMUsed
        = some { name := llvmCompilerUsedName, entries := [Entry.other 1] }
      ∧ lRemoveUnusedPersistentFunctions envNone modBadOperand
          = Except.ok { modBadOperand with markers := [{ name := llvmCompilerUsedName, entries := [] }] } := by
  constructor
  · rfl
  · rfl

/-- C8 amended: during re-closure, a marker operand that does not resolve
to a function aborts compilation exactly when its use count exceeds one
(a non-function operand with at most one use is silently skipped), and an
operand resolving to a function is treated as used exactly when its use
count exceeds one. -/
theorem c8_extract_semantics (env : Env) (M : Module) (mk : Marker)
    (hfind : M.findLLVMUsed = some mk) :
    (lRemoveUnusedPersistentFunctions env M = Except.error CompErr.assertFailed
        ↔ ∃ u, Entry.other u ∈ mk.entries ∧ 1 < u)
      ∧ ((∀ u, Entry.other u ∈ mk.entries → u ≤ 1) →
          lExtractUsedFunctions M mk.entries
            = Except.ok (mk.entries.filterMap (fun e =>
                match e with
                | Entry.fnRef n => if 1 < numUses M n then some n else none
                | Entry.other _ => none))) := by
  constructor
  · rw [lRemoveUnusedPersistentFunctions, hfind]
    cases hext : lExtractUsedFunctions M mk.entries with
    | ok l =>
      simp only [hext, Except.bind]
      constructor
      · intro h
        cases h
      · intro h
        rw [extract_error_iff.mpr h] at hext
        cases hext
    | error e =>
      simp only [hext, Except.bind]
      have he : e = CompErr.assertFailed := extract_error_is_assert hext
      subst he
      exact ⟨fun _ => extract_error_iff.mp hext, fun _ => rfl⟩
  · exact extract_ok_of_no_bad

/-- C8 witness: the amended theorem applied to the concrete module with a
single one-use non-function marker operand: no abort occurs. -/
theorem c8_extract_semantics_witness :
    (lRemoveUnusedPersistentFunctions envNone modBadOperand = Except.error CompErr.assertFailed
        ↔ ∃ u, Entry.other u ∈ ({ name := llvmCompilerUsedName, entries := [Entry.other 1] } : Marker).entries ∧ 1 < u)
      ∧ ((∀ u, Entry.other u ∈ ({ name := llvmCompilerUsedName, entries := [Entry.other 1] } : Marker).entries → u ≤ 1) →
          lExtractUsedFunctions modBadOperand ({ name := llvmCompilerUsedName, entries := [Entry.other 1] } : Marker).entries
            = Except.ok (({ name := llvmCompilerUsedName, entries := [Entry.other 1] } : Marker).entries.filterMap (fun e =>
                match e with
                | Entry.fnRef n => if 1 < numUses modBadOperand n then some n else none
                | Entry.other _ => none))) :=
  c8_extract_semantics envNone modBadOperand
    { name := llvmCompilerUsedName, entries := [Entry.other 1] } rfl

/-! Claim C9: adapting an externally declared intrinsic for ispc. -/

lemma translateParamTypes_error_spec {ps : List LLVMType} {j0 j : Nat}
    (h : translateParamTypes ps j0 = Except.error j) :
    j0 ≤ j ∧ j - j0 < ps.length
      ∧ (∃ t, ps[j - j0]? = some t ∧ lLLVMTypeToISPCType t false = none)
      ∧ ∀ i t', i < j - j0 → ps[i]? = some t' → lLLVMTypeToISPCType t' false ≠ none := by
  induction ps generalizing j0 with
  | nil => simp [translateParamTypes] at h
  | cons t ts ih =>
    simp only [translateParamTypes] at h
    cases ht : lLLVMTypeToISPCType t false with
    | none =>
      rw [ht] at h
      cases h
      refine ⟨Nat.le_refl _, by simp, ⟨t, by simp, ht⟩, ?_⟩
      intro i t' hi
      omega
    | some ty =>
      rw [ht] at h
      cases hrec : translateParamTypes ts (j0 + 1) with
      | ok l => rw [hrec] at h; simp [Except.map] at h
      | error j' =>
        rw [hrec] at h
        simp only [Except.map] at h
        cases h
        obtain ⟨h1, h2, ⟨t', ht', hnone⟩, hall⟩ := ih hrec
        have hj0 : j0 < j := Nat.lt_of_lt_of_le (Nat.lt_succ_self j0) h1
        have hdiff : j - j0 = (j - (j0 + 1)) + 1 := by omega
        refine ⟨Nat.le_of_lt hj0, by simp; omega, ⟨t', by rw [hdiff]; simpa using ht', hnone⟩, ?_⟩
        intro i t'' hi hget
        cases i with
        | zero =>
          simp only [List.getElem?_cons_zero, Option.some.injEq] at hget
          subst hget
          rw [ht]
          simp
        | succ i =>
          simp only [List.getElem?_cons_succ] at hget
          exact hall i t'' (by omega) hget

/-- C9: when adapting an externally declared intrinsic not already in the
symbol table, an unrepresentable return type yields exactly one
user-facing diagnostic naming the symbol, no symbol, and an unchanged
table; an unrepresentable parameter type yields exactly one diagnostic
naming the offending parameter index and the symbol, no symbol, and an
unchanged table (that index is the first parameter whose type does not
translate); and when everything is representable, a symbol with the
translated type is created and registered.  In every case the operation
returns normally — no abort. -/
theorem c9_intrinsic_symbol_adaptation (func : LLVMFunctionSig) (tbl : SymbolTable)
    (hlk : tbl.lookupIntrinsics func = none) :
    (lLLVMTypeToISPCType func.returnType false = none →
        CreateISPCSymbolForLLVMIntrinsic func tbl
          = (none, [Diagnostic.returnNotRepresentable func.name], tbl))
      ∧ (∀ rt j, lLLVMTypeToISPCType func.returnType false = some rt →
          translateParamTypes func.paramTypes 0 = Except.error j →
          CreateISPCSymbolForLLVMIntrinsic func tbl
              = (none, [Diagnostic.paramNotRepresentable j func.name], tbl)
            ∧ j < func.paramTypes.length
            ∧ (∃ t, func.paramTypes[j]? = some t ∧ lLLVMTypeToISPCType t false = none)
            ∧ ∀ i t', i < j → func.paramTypes[i]? = some t' →
                lLLVMTypeToISPCType t' false ≠ none)
      ∧ (∀ rt ats, lLLVMTypeToISPCType func.returnType false = some rt →
          translateParamTypes func.paramTypes 0 = Except.ok ats →
          CreateISPCSymbolForLLVMIntrinsic func tbl
            = (some { name := func.name, returnType := rt, argTypes := ats }, [],
               { tbl with intrinsics := tbl.intrinsics
                   ++ [{ name := func.name, returnType := rt, argTypes := ats }] })) := by
  refine ⟨?_, ?_, ?_⟩
  · intro hret
    rw [CreateISPCSymbolForLLVMIntrinsic, hlk, hret]
  · intro rt j hret hpar
    constructor
    · rw [CreateISPCSymbolForLLVMIntrinsic, hlk, hret, hpar]
    · have := translateParamTypes_error_spec hpar
      simpa using this
  · intro rt ats hret hpar
    rw [CreateISPCSymbolForLLVMIntrinsic, hlk, hret, hpar]
    rfl

/-- C9 witness: adapting the intrinsic sig (i64, [i32, struct]) with an
empty table reports parameter index 1 and registers nothing, while the
fully representable variant (i64, [i32]) is registered. -/
theorem c9_intrinsic_symbol_adaptation_witness :
    (lLLVMTypeToISPCType (LLVMFunctionSig.mk "llvm.x86.t" LLVMType.Int64Type
          [LLVMType.Int32Type, LLVMType.unrepresentable]).returnType false = none →
        CreateISPCSymbolForLLVMIntrinsic
            (LLVMFunctionSig.mk "llvm.x86.t" LLVMType.Int64Type
              [LLVMType.Int32Type, LLVMType.unrepresentable]) (SymbolTable.mk [])
          = (none, [Diagnostic.returnNotRepresentable "llvm.x86.t"], SymbolTable.mk []))
      ∧ (∀ rt j, lLLVMTypeToISPCType (LLVMFunctionSig.mk "llvm.x86.t" LLVMType.Int64Type
            [LLVMType.Int32Type, LLVMType.unrepresentable]).returnType false = some rt →
          translateParamTypes (LLVMFunctionSig.mk "llvm.x86.t" LLVMType.Int64Type
            [LLVMType.Int32Type, LLVMType.unrepresentable]).paramTypes 0 = Except.error j →
          CreateISPCSymbolForLLVMIntrinsic
              (LLVMFunctionSig.mk "llvm.x86.t" LLVMType.Int64Type
                [LLVMType.Int32Type, LLVMType.unrepresentable]) (SymbolTable.mk [])
              = (none, [Diagnostic.paramNotRepresentable j "llvm.x86.t"], SymbolTable.mk [])
            ∧ j < (LLVMFunctionSig.mk "llvm.x86.t" LLVMType.Int64Type
                [LLVMType.Int32Type, LLVMType.unrepresentable]).paramTypes.length
            ∧ (∃ t, (LLVMFunctionSig.mk "llvm.x86.t" LLVMType.Int64Type
                [LLVMType.Int32Type, LLVMType.unrepresentable]).paramTypes[j]? = some t
                  ∧ lLLVMTypeToISPCType t false = none)
            ∧ ∀ i t', i < j → (LLVMFunctionSig.mk "llvm.x86.t" LLVMType.Int64Type
                [LLVMType.Int32Type, LLVMType.unrepresentable]).paramTypes[i]? = some t' →
                lLLVMTypeToISPCType t' false ≠ none)
      ∧ (∀ rt ats, lLLVMTypeToISPCType (LLVMFunctionSig.mk "llvm.x86.t" LLVMType.Int64Type
            [LLVMType.Int32Type, LLVMType.unrepresentable]).returnType false = some rt →
          translateParamTypes (LLVMFunctionSig.mk "llvm.x86.t" LLVMType.Int64Type
            [LLVMType.Int32Type, LLVMType.unrepresentable]).paramTypes 0 = Except.ok ats →
          CreateISPCSymbolForLLVMIntrinsic
              (LLVMFunctionSig.mk "llvm.x86.t" LLVMType.Int64Type
                [LLVMType.Int32Type, LLVMType.unrepresentable]) (SymbolTable.mk [])
            = (some { name := "llvm.x86.t", returnType := rt, argTypes := ats }, [],
               { SymbolTable.mk [] with intrinsics := (SymbolTable.mk []).intrinsics
                   ++ [{ name := "llvm.x86.t", returnType := rt, argTypes := ats }] })) :=
  c9_intrinsic_symbol_adaptation
    (LLVMFunctionSig.mk "llvm.x86.t" LLVMType.Int64Type
      [LLVMType.Int32Type, LLVMType.unrepresentable]) (SymbolTable.mk []) rfl

/-! Claim C10: the bitcode-merge primitive preserves library declarations. -/

lemma hasFunc_getOrInsert_mono {m : Module} {f : Func} {n : String}
    (h : hasFunc m n = true) : hasFunc (getOrInsertFunction m f) n = true := by
  rw [getOrInsertFunction]
  by_cases hf : hasFunc m f.name = true
  · simpa [hf] using h
  · simp only [hf, if_false]
    obtain ⟨g, hg, hgn⟩ := hasFunc_iff.mp h
    exact hasFunc_iff.mpr ⟨g, List.mem_append_left _ hg, hgn⟩

lemma hasFunc_getOrInsert_self {m : Module} {f : Func} :
    hasFunc (getOrInsertFunction m f) f.name = true := by
  rw [getOrInsertFunction]
  by_cases hf : hasFunc m f.name = true
  · simp [hf]
  · simp only [hf, if_false]
    exact hasFunc_iff.mpr ⟨_, List.mem_append_right _ (List.mem_cons_self _ _), rfl⟩

lemma hasFunc_foldl_ins {l : List Func} {m : Module} {p : Func → Bool} {n : String}
    (h : hasFunc m n = true ∨ ∃ f ∈ l, p f = true ∧ f.name = n) :
    hasFunc (l.foldl (fun acc f => if p f then getOrInsertFunction acc f else acc) m) n = true := by
  induction l generalizing m with
  | nil =>
    rcases h with h | ⟨f, hf, _⟩
    · simpa using h
    · simp at hf
  | cons f rest ih =>
    simp only [List.foldl_cons]
    rcases h with h | ⟨g, hg, hpg, hgn⟩
    · refine ih (Or.inl ?_)
      by_cases hpf : p f = true
      · simp only [hpf, if_true]
        exact hasFunc_getOrInsert_mono h
      · simpa [hpf] using h
    · rcases List.mem_cons.mp hg with rfl | hg'
      · refine ih (Or.inl ?_)
        simp only [hpg, if_true]
        rw [← hgn]
        exact hasFunc_getOrInsert_self
      · exact ih (Or.inr ⟨g, hg', hpg, hgn⟩)

lemma linkOnlyNeeded_preserves_dst {dst src : Module} {n : String}
    (h : hasFunc dst n = true) :
    ∃ g ∈ (linkOnlyNeeded dst src).funcs, g.name = n := by
  obtain ⟨f, hf, hfn⟩ := hasFunc_iff.mp h
  subst hfn
  simp only [linkOnlyNeeded]
  refine ⟨_, List.mem_append_left _ (List.mem_map.mpr ⟨f, hf, rfl⟩), ?_⟩
  split
  · split
    · next g hfind =>
      have := List.find?_some hfind
      simp only [Bool.and_eq_true, beq_iff_eq] at this
      exact this.1
    · rfl
  · rfl

lemma linkOnlyNeeded_moves_used_decl {dst src : Module} {f : Func}
    (hf : f ∈ src.funcs) (hd : f.isDecl = true) (hu : 0 < numUses src f.name)
    (habs : hasFunc dst f.name = false) :
    ∃ g ∈ (linkOnlyNeeded dst src).funcs, g.name = f.name := by
  refine ⟨f, List.mem_append_right _ ?_, rfl⟩
  rw [List.mem_filter]
  refine ⟨hf, ?_⟩
  simp [habs, hd, hu]

/-- C10: the bitcode-merge primitive preserves every declaration of the
library module: for every function declared but not defined in the linked
library — whether it has zero uses (inserted by hand before the
needed-only link) or nonzero uses (moved by the linker) — the target
module after lAddBitcodeToModule contains a function of that name. -/
theorem c10_declarations_preserved (bcModule module : Module) (f : Func)
    (hf : f ∈ bcModule.funcs) (hd : f.isDecl = true) :
    ∃ g ∈ (lAddBitcodeToModule bcModule module).funcs, g.name = f.name := by
  rw [lAddBitcodeToModule]
  set m1 := bcModule.funcs.foldl
    (fun acc f =>
      if f.isDecl && decide (numUses bcModule f.name = 0) then getOrInsertFunction acc f else acc)
    module with hm1
  by_cases hz : numUses bcModule f.name = 0
  · have : hasFunc m1 f.name = true := by
      rw [hm1]
      refine hasFunc_foldl_ins (Or.inr ⟨f, hf, ?_, rfl⟩)
      simp [hd, hz]
    exact linkOnlyNeeded_preserves_dst this
  · by_cases hm : hasFunc m1 f.name = true
    · exact linkOnlyNeeded_preserves_dst hm
    · refine linkOnlyNeeded_moves_used_decl hf hd (Nat.pos_of_ne_zero hz) ?_
      simpa using hm

/-! Claims C4 and C5: the composition sequence. -/

/-- C4: composition never mutates the shared precompiled-library
instances: every individual link stage, the full LinkStandardLibraries
sequence and LinkDispatcher leave the registry (the shared libraries)
exactly as it was — all adaptation happens on the private copy obtained
from the registry and is merged into the target module only. -/
theorem c4_libraries_never_mutated (idOf : String → Nat) (typeOf : Nat → Ty) (st : CompState) :
    (lLinkStdlib st).registry = st.registry
      ∧ (lLinkCommonBuiltins st).registry = st.registry
      ∧ (lLinkTargetBuiltins st).registry = st.registry
      ∧ (LinkDispatcher st).registry = st.registry
      ∧ ∀ st', LinkStandardLibraries idOf typeOf st = Except.ok st' →
          st'.registry = st.registry := by
  refine ⟨rfl, rfl, rfl, rfl, ?_⟩
  intro st' h
  rw [LinkStandardLibraries] at h
  by_cases hinc : st.includeStdlib = true
  · rw [if_pos hinc] at h
    obtain ⟨t, hpp, h2⟩ := except_bind_ok h
    obtain ⟨st1, h3, h4⟩ := except_bind_ok h2
    cases h3
    obtain ⟨u, h5, h6⟩ := except_bind_ok h4
    cases h6
    rfl
  · rw [if_neg hinc] at h
    obtain ⟨st1, h3, h4⟩ := except_bind_ok h
    cases h3
    obtain ⟨u, h5, h6⟩ := except_bind_ok h4
    cases h6
    rfl

/-- C4 witness: the theorem applied to the empty composition state, whose
LinkStandardLibraries run succeeds and returns the state unchanged. -/
theorem c4_libraries_never_mutated_witness :
    (lLinkStdlib sampleState).registry = sampleState.registry
      ∧ (lLinkCommonBuiltins sampleState).registry = sampleState.registry
      ∧ (lLinkTargetBuiltins sampleState).registry = sampleState.registry
      ∧ (LinkDispatcher sampleState).registry = sampleState.registry
      ∧ ∀ st', LinkStandardLibraries (fun _ => 0) (fun _ => sampleTy) sampleState = Except.ok st' →
          st'.registry = sampleState.registry :=
  c4_libraries_never_mutated (fun _ => 0) (fun _ => sampleTy) sampleState

/-- C5: with includeStdlib = false only the anchor step runs before the
common stages — no standard-library linking, pruning or re-closure — and
the remaining stages (common builtins link and prune, target builtins
link and prune, global-variable demotion, intrinsic check) are the very
same afterStdlibStages function that the includeStdlib = true run
executes after its stdlib-link-and-protect-prune prefix. -/
theorem c5_stdlib_optional (idOf : String → Nat) (typeOf : Nat → Ty) (st : CompState) :
    (st.includeStdlib = false →
        LinkStandardLibraries idOf typeOf st
          = afterStdlibStages idOf typeOf
              { st with target := lAddPersistentToLLVMUsed st.env st.target })
      ∧ (st.includeStdlib = true →
        LinkStandardLibraries idOf typeOf st
          = (protectPrune (lLinkStdlib st).env (lLinkStdlib st).target).bind
              (fun t => afterStdlibStages idOf typeOf { lLinkStdlib st with target := t })) := by
  constructor
  · intro h
    rw [LinkStandardLibraries]
    rw [if_neg (by rw [h]; exact Bool.false_ne_true)]
    rfl
  · intro h
    rw [LinkStandardLibraries]
    rw [if_pos h]
    show ((protectPrune (lLinkStdlib st).env (lLinkStdlib st).target) >>= fun t =>
        Except.ok { lLinkStdlib st with target := t } >>= fun st1 =>
          afterStdlibStages idOf typeOf st1)
      = (protectPrune (lLinkStdlib st).env (lLinkStdlib st).target).bind
          (fun t => afterStdlibStages idOf typeOf { lLinkStdlib st with target := t })
    exact except_bind_pure_assoc _ _ _

/-- C5 witness: the theorem applied once with includeStdlib = false (the
empty sample state) and once with it set to true. -/
theorem c5_stdlib_optional_witness :
    (LinkStandardLibraries (fun _ => 0) (fun _ => sampleTy) sampleState
        = afterStdlibStages (fun _ => 0) (fun _ => sampleTy)
            { sampleState with
              target := lAddPersistentToLLVMUsed sampleState.env sampleState.target })
      ∧ (LinkStandardLibraries (fun _ => 0) (fun _ => sampleTy)
            { sampleState with includeStdlib := true }
          = (protectPrune (lLinkStdlib { sampleState with includeStdlib := true }).env
                (lLinkStdlib { sampleState with includeStdlib := true }).target).bind
              (fun t => afterStdlibStages (fun _ => 0) (fun _ => sampleTy)
                { lLinkStdlib { sampleState with includeStdlib := true } with target := t })) :=
  ⟨(c5_stdlib_optional (fun _ => 0) (fun _ => sampleTy) sampleState).1 rfl,
   (c5_stdlib_optional (fun _ => 0) (fun _ => sampleTy)
      { sampleState with includeStdlib := true }).2 rfl⟩

/-- C10 witness: a zero-use declaration d of an otherwise empty library
survives the merge into the empty module. -/
theorem c10_declarations_preserved_witness :
    ∃ g ∈ (lAddBitcodeToModule
        { emptyModule with funcs := [{ mkDefined "d" Linkage.external [] with isDecl := true }] }
        emptyModule).funcs,
      g.name = ({ mkDefined "d" Linkage.external [] with isDecl := true } : Func).name :=
  c10_declarations_preserved
    { emptyModule with funcs := [{ mkDefined "d" Linkage.external [] with isDecl := true }] }
    emptyModule
    { mkDefined "d" Linkage.external [] with isDecl := true }
    (List.mem_singleton.mpr rfl) rfl

end ISPC
